import Mathlib

/-!
Shallow embedding of the transaction-graph store of `carlosb1/rust-challenge`
(`src/graph.rs` and `src/domain.rs`).

Machine integers (`u32`) are modelled as `Nat`; all arithmetic performed by the
source (`+ 1`, `min _ _ + 1`) stays far below `2^32` on every input considered
here, so no wrap-around modelling is needed.  The `HashMap<u32, Transaction>`
is modelled as the partial map `Nat → Option Transaction`.  Rust panics
(`expect` / `unwrap` on the internal lookups) are modelled by returning `none`
at the outermost level: a result of `none` means the Rust code would panic.
-/

/-- Per-transaction metrics (`Metrics` in `domain.rs`, used as
`TransactionMetrics` in `graph.rs`): depth from the root and the count of
references received from later-admitted transactions. -/
structure TransactionMetrics where
  depth : Nat
  in_reference : Nat
deriving DecidableEq

/-- A transaction (`Node` in `domain.rs`, used as `Transaction` in
`graph.rs`): id, timestamp, optional pair of parent ids, and metrics. -/
structure Transaction where
  id : Nat
  timestamp : Nat
  parents : Option (Nat × Nat)
  metrics : TransactionMetrics
deriving DecidableEq

/-- `Node::new` from `domain.rs`: a non-root transaction starts with
`depth = 0` and `in_reference = 0`. -/
def Transaction.new (id left_parent right_parent timestamp : Nat) : Transaction :=
  { id := id
    timestamp := timestamp
    parents := some (left_parent, right_parent)
    metrics := { depth := 0, in_reference := 0 } }

/-- Modelled from the spec: the `GeneralMetrics` struct itself is not under
`src/` (only `graph.rs` uses it); its two fields and their meaning are fixed by
the uses in `graph.rs` and by the spec's Design Notes, which say the source
uses the sentinel id `0` to mean "no summary value yet" and that `create`
initializes both summary metrics to unset. -/
structure GeneralMetrics where
  last_transaction : Nat
  most_in_reference_transaction : Nat
deriving DecidableEq

/-- Modelled from the spec: `Default::default()` for `GeneralMetrics`, i.e.
both summary fields start at the unset sentinel `0`. -/
def GeneralMetrics.default : GeneralMetrics :=
  { last_transaction := 0, most_in_reference_transaction := 0 }

/-- Error type of the graph (`GraphError` in `graph.rs`). -/
inductive GraphError where
  | DuplicatedIdFound (id : Nat)
  | ParentNotFound
  | ParentNotSpecified
deriving DecidableEq

/-- The graph structure from `graph.rs`: node counter, node map, summary
metrics. -/
structure Graph where
  num_nodes : Nat
  nodes : Nat → Option Transaction
  metrics : GeneralMetrics

/-- The constant `ROOT_NODE` from `graph.rs`. -/
def ROOT_NODE : Transaction :=
  { id := 1
    timestamp := 0
    parents := none
    metrics := { depth := 0, in_reference := 0 } }

/-- `Graph::with_capacity` from `graph.rs`: `num_nodes = num_child + 1`, a map
holding only the root at key `1`, default (unset) summary metrics. -/
def Graph.with_capacity (num_child : Nat) : Graph :=
  { num_nodes := num_child + 1
    nodes := fun k => if k = 1 then some ROOT_NODE else none
    metrics := GeneralMetrics.default }

/-- `Graph::exists_node`. -/
def Graph.exists_node (g : Graph) (id : Nat) : Bool :=
  (g.nodes id).isSome

/-- `Graph::add_vertex`: `self.nodes.insert(node.id, node.clone())`. -/
def Graph.add_vertex (g : Graph) (node : Transaction) : Graph :=
  { g with nodes := fun k => if k = node.id then some node else g.nodes k }

/-- `Graph::update_last_transaction`.  The `expect` on the lookup of the
currently recorded last transaction is modelled by `none`. -/
def Graph.update_last_transaction (g : Graph) (node : Transaction) : Option Graph :=
  if g.metrics.last_transaction = 0 then
    some { g with metrics := { g.metrics with last_transaction := node.id } }
  else
    match g.nodes g.metrics.last_transaction with
    | none => none
    | some last =>
      if last.timestamp < node.timestamp then
        some { g with metrics := { g.metrics with last_transaction := node.id } }
      else
        some g

/-- `Graph::update_most_in_reference_transaction`.  The `expect` on the lookup
of the currently recorded most-referenced transaction is modelled by `none`. -/
def Graph.update_most_in_reference_transaction (g : Graph)
    (to_compare : Nat × TransactionMetrics) : Option Graph :=
  let gset : Graph :=
    { g with metrics := { g.metrics with most_in_reference_transaction := to_compare.1 } }
  if g.metrics.most_in_reference_transaction = 0 then
    some gset
  else
    match g.nodes g.metrics.most_in_reference_transaction with
    | none => none
    | some cur =>
      if cur.metrics.in_reference < to_compare.2.in_reference then
        some gset
      else
        some g

/-- `Graph::update_metrics`: increment `in_reference` on the left parent and
snapshot it, then on the right parent and snapshot it, set the candidate's
depth from the snapshots, then run the three summary updates.  Every `expect`
and `unwrap` is modelled by `none`. -/
def Graph.update_metrics (g : Graph) (node : Transaction) :
    Option (Graph × Transaction) :=
  match node.parents with
  | none => none
  | some parents =>
    match g.nodes parents.1 with
    | none => none
    | some lp =>
      let lpm : TransactionMetrics :=
        { lp.metrics with in_reference := lp.metrics.in_reference + 1 }
      let lp2 : Transaction := { lp with metrics := lpm }
      let g1 : Graph :=
        { g with nodes := fun k => if k = parents.1 then some lp2 else g.nodes k }
      let left_parent_metrics : Nat × TransactionMetrics := (lp2.id, lp2.metrics)
      match g1.nodes parents.2 with
      | none => none
      | some rp =>
        let rpm : TransactionMetrics :=
          { rp.metrics with in_reference := rp.metrics.in_reference + 1 }
        let rp2 : Transaction := { rp with metrics := rpm }
        let g2 : Graph :=
          { g1 with nodes := fun k => if k = parents.2 then some rp2 else g1.nodes k }
        let right_parent_metrics : Nat × TransactionMetrics := (rp2.id, rp2.metrics)
        let ndepth : Nat :=
          min left_parent_metrics.2.depth right_parent_metrics.2.depth + 1
        let node2 : Transaction :=
          { node with metrics := { node.metrics with depth := ndepth } }
        match g2.update_last_transaction node2 with
        | none => none
        | some g3 =>
          match g3.update_most_in_reference_transaction left_parent_metrics with
          | none => none
          | some g4 =>
            match g4.update_most_in_reference_transaction right_parent_metrics with
            | none => none
            | some g5 => some (g5, node2)

/-- `Graph::add_node`: the three validation checks in source order, then
`update_metrics`, then `add_vertex`.  The returned triple is the `Result`,
the graph after the call, and the candidate after the call (the Rust function
mutates the candidate through `&mut`). -/
def Graph.add_node (g : Graph) (node : Transaction) :
    Option (Except GraphError Unit × Graph × Transaction) :=
  if g.exists_node node.id then
    some (Except.error (GraphError.DuplicatedIdFound node.id), g, node)
  else
    match node.parents with
    | none => some (Except.error GraphError.ParentNotSpecified, g, node)
    | some parents =>
      if !g.exists_node parents.1 || !g.exists_node parents.2 then
        some (Except.error GraphError.ParentNotFound, g, node)
      else
        match g.update_metrics node with
        | none => none
        | some (g2, node2) => some (Except.ok (), g2.add_vertex node2, node2)

/-- `TryFrom<Vec<(u32, u32, u32)>> for Graph`, the list of candidates: the
`index`-th triple `(left, right, timestamp)` becomes
`Transaction::new(index + 2, left, right, timestamp)`. -/
def mkNodes (values : List (Nat × Nat × Nat)) : List Transaction :=
  values.enum.map fun p => Transaction.new (p.1 + 2) p.2.1 p.2.2.1 p.2.2.2

/-- The insertion loop of `TryFrom`: add each candidate in order, stopping at
the first error (`?` operator); `none` models a panic inside `add_node`. -/
def addLoop (g : Graph) : List Transaction → Option (Except GraphError Graph)
  | [] => some (Except.ok g)
  | n :: ns =>
    match g.add_node n with
    | none => none
    | some (Except.error e, _, _) => some (Except.error e)
    | some (Except.ok _, g', _) => addLoop g' ns

/-- `Graph::try_from` (`TryFrom<Vec<(u32, u32, u32)>>` in `graph.rs`): build
the candidates, allocate `with_capacity values.len()`, insert them in order. -/
def Graph.try_from (values : List (Nat × Nat × Nat)) :
    Option (Except GraphError Graph) :=
  addLoop (Graph.with_capacity values.length) (mkNodes values)

/-- A run of successful insertions: fold `add_node` over the candidates,
requiring every call to return `Ok`; `none` if any call errors or panics. -/
def addAll (g : Graph) : List Transaction → Option Graph
  | [] => some g
  | c :: cs =>
    match g.add_node c with
    | some (Except.ok _, g', _) => addAll g' cs
    | _ => none

/-- One successful insertion step, as an `Option`-valued state update. -/
def addOk (g : Graph) (c : Transaction) : Option Graph :=
  match g.add_node c with
  | some (Except.ok _, g', _) => some g'
  | _ => none

/-- The `in_reference` stored for id `k` (junk value `0` when absent). -/
def irOf (g : Graph) (k : Nat) : Nat :=
  match g.nodes k with
  | some t => t.metrics.in_reference
  | none => 0

/-- The `timestamp` stored for id `k` (junk value `0` when absent). -/
def tsOf (g : Graph) (k : Nat) : Nat :=
  match g.nodes k with
  | some t => t.timestamp
  | none => 0

/-- The `in_reference` of id `k` after the first `j` insertions of the run
`cs` out of `g0` (junk value `0` when the prefix run fails). -/
def irAt (g0 : Graph) (cs : List Transaction) (j k : Nat) : Nat :=
  match addAll g0 (cs.take j) with
  | some g => irOf g k
  | none => 0

/-- The error returned by an `add_node` result, if any. -/
def errOf (r : Option (Except GraphError Unit × Graph × Transaction)) :
    Option GraphError :=
  match r with
  | some (Except.error e, _, _) => some e
  | _ => none

/-- Graphs reachable through the public interface: a freshly created graph,
or the graph after any completed (non-panicking) `add_node` call on a
reachable graph, whether that call succeeded or returned an error. -/
inductive Reachable : Graph → Prop where
  | base (n : Nat) : Reachable (Graph.with_capacity n)
  | step {g : Graph} {c : Transaction} {r : Except GraphError Unit}
      {g' : Graph} {c' : Transaction} :
      Reachable g → g.add_node c = some (r, g', c') → Reachable g'

/-- The `in_reference += 1` update that `update_metrics` performs on a parent. -/
def bump (t : Transaction) : Transaction :=
  { t with metrics := { t.metrics with in_reference := t.metrics.in_reference + 1 } }

/-- The node map after the two parent increments of `update_metrics`: first the
left parent entry is overwritten with its bumped value, then the right one. -/
def bumpNodes (nodes : Nat → Option Transaction) (p1 p2 : Nat) (lp rp : Transaction) :
    Nat → Option Transaction :=
  fun k => if k = p2 then some (bump rp) else if k = p1 then some (bump lp) else nodes k

/-- Exact effect of one `update_last_transaction` call on the recorded id. -/
def LastStep (nodes : Nat → Option Transaction) (cur : Nat) (c : Transaction)
    (next : Nat) : Prop :=
  (cur = 0 ∧ next = c.id) ∨
  (cur ≠ 0 ∧ ∃ t, nodes cur = some t ∧
    next = if t.timestamp < c.timestamp then c.id else cur)

/-- Exact effect of one `update_most_in_reference_transaction` call on the
recorded id. -/
def MostStep (nodes : Nat → Option Transaction) (cur : Nat)
    (snap : Nat × TransactionMetrics) (next : Nat) : Prop :=
  (cur = 0 ∧ next = snap.1) ∨
  (cur ≠ 0 ∧ ∃ t, nodes cur = some t ∧
    next = if t.metrics.in_reference < snap.2.in_reference then snap.1 else cur)

theorem update_last_elim {g : Graph} {c : Transaction} {g' : Graph}
    (h : g.update_last_transaction c = some g') :
    g'.nodes = g.nodes ∧ g'.num_nodes = g.num_nodes ∧
      g'.metrics.most_in_reference_transaction = g.metrics.most_in_reference_transaction ∧
      LastStep g.nodes g.metrics.last_transaction c g'.metrics.last_transaction := by
  unfold Graph.update_last_transaction at h
  split at h
  case isTrue h0 =>
    injection h with h
    subst h
    exact ⟨rfl, rfl, rfl, Or.inl ⟨h0, rfl⟩⟩
  case isFalse h0 =>
    cases hl : g.nodes g.metrics.last_transaction with
    | none => rw [hl] at h; cases h
    | some t =>
      rw [hl] at h
      dsimp only at h
      by_cases hlt : t.timestamp < c.timestamp
      · rw [if_pos hlt] at h
        injection h with h
        subst h
        exact ⟨rfl, rfl, rfl, Or.inr ⟨h0, t, hl, by rw [if_pos hlt]⟩⟩
      · rw [if_neg hlt] at h
        injection h with h
        subst h
        exact ⟨rfl, rfl, rfl, Or.inr ⟨h0, t, hl, by rw [if_neg hlt]⟩⟩

theorem update_most_elim {g : Graph} {snap : Nat × TransactionMetrics} {g' : Graph}
    (h : g.update_most_in_reference_transaction snap = some g') :
    g'.nodes = g.nodes ∧ g'.num_nodes = g.num_nodes ∧
      g'.metrics.last_transaction = g.metrics.last_transaction ∧
      MostStep g.nodes g.metrics.most_in_reference_transaction snap
        g'.metrics.most_in_reference_transaction := by
  unfold Graph.update_most_in_reference_transaction at h
  dsimp only at h
  split at h
  case isTrue h0 =>
    injection h with h
    subst h
    exact ⟨rfl, rfl, rfl, Or.inl ⟨h0, rfl⟩⟩
  case isFalse h0 =>
    cases hl : g.nodes g.metrics.most_in_reference_transaction with
    | none => rw [hl] at h; cases h
    | some t =>
      rw [hl] at h
      dsimp only at h
      by_cases hlt : t.metrics.in_reference < snap.2.in_reference
      · rw [if_pos hlt] at h
        injection h with h
        subst h
        exact ⟨rfl, rfl, rfl, Or.inr ⟨h0, t, hl, by rw [if_pos hlt]⟩⟩
      · rw [if_neg hlt] at h
        injection h with h
        subst h
        exact ⟨rfl, rfl, rfl, Or.inr ⟨h0, t, hl, by rw [if_neg hlt]⟩⟩

/-- Canonical form of `update_metrics` once the parents and the left-parent
lookup are known: the remaining computation over the doubly-bumped node map. -/
theorem update_metrics_canon (g : Graph) (c : Transaction) (ps : Nat × Nat)
    (lp : Transaction) (hp : c.parents = some ps) (hlp : g.nodes ps.1 = some lp) :
    g.update_metrics c =
      match (if ps.2 = ps.1 then some (bump lp) else g.nodes ps.2) with
      | none => none
      | some rp =>
        match ({ g with nodes := bumpNodes g.nodes ps.1 ps.2 lp rp } : Graph).update_last_transaction
            { c with metrics := { c.metrics with
              depth := min (bump lp).metrics.depth (bump rp).metrics.depth + 1 } } with
        | none => none
        | some g3 =>
          match g3.update_most_in_reference_transaction ((bump lp).id, (bump lp).metrics) with
          | none => none
          | some g4 =>
            match g4.update_most_in_reference_transaction ((bump rp).id, (bump rp).metrics) with
            | none => none
            | some g5 =>
              some (g5, { c with metrics := { c.metrics with
                depth := min (bump lp).metrics.depth (bump rp).metrics.depth + 1 } }) := by
  unfold Graph.update_metrics
  rw [hp]
  dsimp only
  rw [hlp]
  dsimp only [bump, bumpNodes]
  rfl

/-- Full description of a successful `update_metrics` call: the validated
parents and their pre-call values exist, the returned candidate carries the
computed depth, the node map is the doubly-bumped map, and the two summary
fields evolve by one `LastStep` and two `MostStep`s over that map. -/
theorem update_metrics_elim {g : Graph} {c : Transaction} {g5 : Graph} {c2 : Transaction}
    (h : g.update_metrics c = some (g5, c2)) :
    ∃ ps lp rp,
      c.parents = some ps ∧
      g.nodes ps.1 = some lp ∧
      (if ps.2 = ps.1 then some (bump lp) else g.nodes ps.2) = some rp ∧
      c2 = { c with metrics := { c.metrics with
        depth := min (bump lp).metrics.depth (bump rp).metrics.depth + 1 } } ∧
      g5.nodes = bumpNodes g.nodes ps.1 ps.2 lp rp ∧
      g5.num_nodes = g.num_nodes ∧
      LastStep (bumpNodes g.nodes ps.1 ps.2 lp rp) g.metrics.last_transaction c
        g5.metrics.last_transaction ∧
      ∃ m1,
        MostStep (bumpNodes g.nodes ps.1 ps.2 lp rp)
          g.metrics.most_in_reference_transaction ((bump lp).id, (bump lp).metrics) m1 ∧
        MostStep (bumpNodes g.nodes ps.1 ps.2 lp rp) m1 ((bump rp).id, (bump rp).metrics)
          g5.metrics.most_in_reference_transaction := by
  cases hp : c.parents with
  | none =>
    unfold Graph.update_metrics at h
    rw [hp] at h
    cases h
  | some ps =>
    cases hlp : g.nodes ps.1 with
    | none =>
      unfold Graph.update_metrics at h
      rw [hp] at h
      dsimp only at h
      rw [hlp] at h
      cases h
    | some lp =>
      rw [update_metrics_canon g c ps lp hp hlp] at h
      cases hrp : (if ps.2 = ps.1 then some (bump lp) else g.nodes ps.2) with
      | none => rw [hrp] at h; cases h
      | some rp =>
        rw [hrp] at h
        dsimp only at h
        cases hul : ({ g with nodes := bumpNodes g.nodes ps.1 ps.2 lp rp } : Graph).update_last_transaction
            { c with metrics := { c.metrics with
              depth := min (bump lp).metrics.depth (bump rp).metrics.depth + 1 } } with
        | none => rw [hul] at h; cases h
        | some g3 =>
          rw [hul] at h
          dsimp only at h
          cases hm1 : g3.update_most_in_reference_transaction ((bump lp).id, (bump lp).metrics) with
          | none => rw [hm1] at h; cases h
          | some g4 =>
            rw [hm1] at h
            dsimp only at h
            cases hm2 : g4.update_most_in_reference_transaction ((bump rp).id, (bump rp).metrics) with
            | none => rw [hm2] at h; cases h
            | some g5x =>
              rw [hm2] at h
              dsimp only at h
              injection h with h
              injection h with h5 hc2
              subst h5
              obtain ⟨hn3, hnum3, hmost3, hlast3⟩ := update_last_elim hul
              obtain ⟨hn4, hnum4, hlast4, hmost4⟩ := update_most_elim hm1
              obtain ⟨hn5, hnum5, hlast5, hmost5⟩ := update_most_elim hm2
              have hc2' := hc2.symm
              rw [hp] at hc2'
              refine ⟨ps, lp, rp, rfl, hlp, hrp, hc2', ?_, ?_, ?_, ?_⟩
              · exact hn5.trans (hn4.trans hn3)
              · exact hnum5.trans (hnum4.trans hnum3)
              · rw [hlast5, hlast4]
                exact hlast3
              · refine ⟨g4.metrics.most_in_reference_transaction, ?_, ?_⟩
                · rw [hn3] at hmost4
                  rw [hmost3] at hmost4
                  exact hmost4
                · rw [hn4, hn3] at hmost5
                  exact hmost5

/-- On every error path, `add_node` returns the graph and the candidate
exactly as they were passed in. -/
theorem add_node_error_elim {g : Graph} {c : Transaction} {e : GraphError}
    {g' : Graph} {c' : Transaction}
    (h : g.add_node c = some (Except.error e, g', c')) : g' = g ∧ c' = c := by
  unfold Graph.add_node at h
  split at h
  · injection h with h
    injection h with he hgc
    injection hgc with hg hc
    exact ⟨hg.symm, hc.symm⟩
  · cases hp : c.parents with
    | none =>
      rw [hp] at h
      dsimp only at h
      injection h with h
      injection h with he hgc
      injection hgc with hg hc
      exact ⟨hg.symm, hc.symm⟩
    | some ps =>
      rw [hp] at h
      dsimp only at h
      split at h
      · injection h with h
        injection h with he hgc
        injection hgc with hg hc
        exact ⟨hg.symm, hc.symm⟩
      · cases hum : g.update_metrics c with
        | none => rw [hum] at h; cases h
        | some pr =>
          rw [hum] at h
          dsimp only at h
          injection h with h
          injection h with he hgc
          exact (Except.noConfusion he)

/-- Full description of a successful `add_node` call: validation passed, the
candidate id was fresh, the final node map is the doubly-bumped map plus the
committed candidate, and the two summary fields evolve by one `LastStep` and
two `MostStep`s over the bumped map. -/
theorem add_node_ok_elim {g : Graph} {c : Transaction} {g' : Graph} {c' : Transaction}
    (h : g.add_node c = some (Except.ok (), g', c')) :
    g.nodes c.id = none ∧
    ∃ ps lp rp,
      c.parents = some ps ∧
      g.nodes ps.1 = some lp ∧
      (if ps.2 = ps.1 then some (bump lp) else g.nodes ps.2) = some rp ∧
      c' = { c with metrics := { c.metrics with
        depth := min (bump lp).metrics.depth (bump rp).metrics.depth + 1 } } ∧
      g'.num_nodes = g.num_nodes ∧
      g'.nodes = (fun k => if k = c.id then some c'
        else bumpNodes g.nodes ps.1 ps.2 lp rp k) ∧
      LastStep (bumpNodes g.nodes ps.1 ps.2 lp rp) g.metrics.last_transaction c
        g'.metrics.last_transaction ∧
      ∃ m1,
        MostStep (bumpNodes g.nodes ps.1 ps.2 lp rp)
          g.metrics.most_in_reference_transaction ((bump lp).id, (bump lp).metrics) m1 ∧
        MostStep (bumpNodes g.nodes ps.1 ps.2 lp rp) m1 ((bump rp).id, (bump rp).metrics)
          g'.metrics.most_in_reference_transaction := by
  unfold Graph.add_node at h
  split at h
  case isTrue hdup =>
    injection h with h
    injection h with he hgc
    exact (Except.noConfusion he)
  case isFalse hdup =>
    have hnone : g.nodes c.id = none := by
      unfold Graph.exists_node at hdup
      exact Option.not_isSome_iff_eq_none.mp (by simpa using hdup)
    cases hp : c.parents with
    | none =>
      rw [hp] at h
      dsimp only at h
      injection h with h
      injection h with he hgc
      exact (Except.noConfusion he)
    | some ps =>
      rw [hp] at h
      dsimp only at h
      split at h
      · injection h with h
        injection h with he hgc
        exact (Except.noConfusion he)
      · cases hum : g.update_metrics c with
        | none => rw [hum] at h; cases h
        | some pr =>
          rw [hum] at h
          dsimp only at h
          injection h with h
          injection h with he hgc
          injection hgc with hg hc
          obtain ⟨ps', lp, rp, hp', hlp, hrp, hc2, hnodes5, hnum5, hlast, hmost⟩ :=
            update_metrics_elim hum
          rw [hp] at hp'
          injection hp' with hps
          subst hps
          refine ⟨hnone, ps, lp, rp, rfl, hlp, hrp, ?_, ?_, ?_, ?_, ?_⟩
          · rw [← hc, hc2, hp]
          · rw [← hg]
            exact hnum5
          · rw [← hg, ← hc]
            funext k
            show (if k = pr.2.id then some pr.2 else pr.1.nodes k) = _
            rw [hnodes5]
            have hid : pr.2.id = c.id := by rw [hc2]
            rw [hid]
          · rw [← hg]
            exact hlast
          · rw [← hg]
            exact hmost

/-- Concrete candidate whose id duplicates the root and whose parents are
absent. -/
def dupNoParents : Transaction :=
  { id := 1, timestamp := 0, parents := none, metrics := { depth := 0, in_reference := 0 } }

/-- Concrete candidate with a fresh id and absent parents. -/
def freshNoParents : Transaction :=
  { id := 2, timestamp := 0, parents := none, metrics := { depth := 0, in_reference := 0 } }

/-- Concrete candidate carrying a caller-supplied `in_reference` of `7`. -/
def preloadedCandidate : Transaction :=
  { id := 2, timestamp := 0, parents := some (1, 1), metrics := { depth := 0, in_reference := 7 } }

/-- C1: whenever `add_node` returns one of the three errors, the whole graph
value (stored transactions, their metrics, and both summary metrics) is
exactly the one passed in, and the candidate is not mutated either —
insertion is all-or-nothing. -/
theorem claim_C1_error_is_pure (g : Graph) (c : Transaction) (e : GraphError)
    (g' : Graph) (c' : Transaction)
    (h : g.add_node c = some (Except.error e, g', c')) : g' = g ∧ c' = c :=
  add_node_error_elim h

/-- Witness for C1 at a concrete erroring call: a candidate duplicating the
root id is rejected with `DuplicatedIdFound 1` and the graph is returned
unchanged. -/
theorem claim_C1_witness :
    (Graph.with_capacity 0).add_node dupNoParents =
      some (Except.error (GraphError.DuplicatedIdFound 1), Graph.with_capacity 0, dupNoParents) ∧
    (Graph.with_capacity 0 = Graph.with_capacity 0 ∧ dupNoParents = dupNoParents) :=
  ⟨rfl, claim_C1_error_is_pure (Graph.with_capacity 0) dupNoParents
    (GraphError.DuplicatedIdFound 1) (Graph.with_capacity 0) dupNoParents rfl⟩

/-- C8: `create(capacity_hint)` (that is, `Graph::with_capacity`) always
succeeds and yields a graph whose only entry is the root: id 1, no parents,
timestamp 0, depth 0, `in_reference` 0; both summary metrics are the unset
sentinel `0`, and the store is sized `capacity_hint + 1`. -/
theorem claim_C8_create (n : Nat) :
    (Graph.with_capacity n).nodes 1 = some ROOT_NODE ∧
    (∀ k, ((Graph.with_capacity n).nodes k).isSome = true ↔ k = 1) ∧
    ROOT_NODE.id = 1 ∧ ROOT_NODE.parents = none ∧ ROOT_NODE.timestamp = 0 ∧
    ROOT_NODE.metrics.depth = 0 ∧ ROOT_NODE.metrics.in_reference = 0 ∧
    (Graph.with_capacity n).metrics.last_transaction = 0 ∧
    (Graph.with_capacity n).metrics.most_in_reference_transaction = 0 ∧
    (Graph.with_capacity n).num_nodes = n + 1 := by
  refine ⟨rfl, ?_, rfl, rfl, rfl, rfl, rfl, rfl, rfl, rfl⟩
  intro k
  by_cases hk : k = 1 <;> simp [Graph.with_capacity, hk]

/-- C10: `num_nodes` is `capacity_hint + 1` at construction and no completed
`add_node` call — successful or failing — ever changes it; in particular it
does not track the number of stored transactions. -/
theorem claim_C10_num_nodes_frame :
    (∀ n, (Graph.with_capacity n).num_nodes = n + 1) ∧
    ∀ (g : Graph) (c : Transaction) (res : Except GraphError Unit × Graph × Transaction),
      g.add_node c = some res → res.2.1.num_nodes = g.num_nodes := by
  refine ⟨fun n => rfl, ?_⟩
  rintro g c ⟨r, g', c'⟩ h
  show g'.num_nodes = g.num_nodes
  cases r with
  | error e =>
    obtain ⟨hg, _⟩ := add_node_error_elim h
    rw [hg]
  | ok u =>
    cases u
    obtain ⟨_, ps, lp, rp, _, _, _, _, hnum, _, _, _⟩ := add_node_ok_elim h
    exact hnum

/-- Witness for C10 at a concrete call. -/
theorem claim_C10_witness :
    (Graph.with_capacity 0).num_nodes = 0 + 1 ∧
    ((Except.error (GraphError.DuplicatedIdFound 1) : Except GraphError Unit),
      Graph.with_capacity 0, dupNoParents).2.1.num_nodes = (Graph.with_capacity 0).num_nodes :=
  ⟨claim_C10_num_nodes_frame.1 0,
   claim_C10_num_nodes_frame.2 (Graph.with_capacity 0) dupNoParents _ rfl⟩

/-- Counterexample to C6 as stated: a candidate with absent parents whose id
is already present fails with `DuplicatedIdFound`, not `ParentNotSpecified`,
because the duplicate check runs first. -/
theorem claim_C6_counterexample :
    dupNoParents.parents = none ∧
    errOf ((Graph.with_capacity 0).add_node dupNoParents) =
      some (GraphError.DuplicatedIdFound 1) ∧
    errOf ((Graph.with_capacity 0).add_node dupNoParents) ≠
      some GraphError.ParentNotSpecified :=
  ⟨rfl, rfl, by decide⟩

/-- C6 amended: a candidate with absent parents fails with
`ParentNotSpecified` whenever its id is novel; when the id already exists the
duplicate check fires first and the call fails with `DuplicatedIdFound`. -/
theorem claim_C6_amended (g : Graph) (c : Transaction)
    (hpar : c.parents = none) (hnew : g.exists_node c.id = false) :
    g.add_node c = some (Except.error GraphError.ParentNotSpecified, g, c) := by
  unfold Graph.add_node
  rw [hnew, hpar]
  rfl

/-- Witness for the amended C6 at a concrete call. -/
theorem claim_C6_witness :
    freshNoParents.parents = none ∧
    (Graph.with_capacity 0).exists_node freshNoParents.id = false ∧
    (Graph.with_capacity 0).add_node freshNoParents =
      some (Except.error GraphError.ParentNotSpecified, Graph.with_capacity 0, freshNoParents) :=
  ⟨rfl, rfl, claim_C6_amended (Graph.with_capacity 0) freshNoParents rfl rfl⟩

/-- Counterexample to C5 as stated: a successful `add` of a candidate whose
caller-supplied `in_reference` is `7` commits the candidate with
`in_reference = 7`, not `0` — the insertion algorithm overwrites only
`depth`, never `in_reference`. -/
theorem claim_C5_counterexample :
    (addAll (Graph.with_capacity 1) [preloadedCandidate]).map (fun g => irOf g 2) = some 7 := by
  rfl

/-- C5 amended: a successful `add` commits the candidate with exactly the
caller-supplied `in_reference` (only `depth` is recomputed); the committed
value is `0` precisely for candidates built by the constructor
`Transaction::new`, which always sets the placeholder `0`. -/
theorem claim_C5_amended (g : Graph) (c : Transaction) (g' : Graph) (c' : Transaction)
    (h : g.add_node c = some (Except.ok (), g', c')) :
    g'.nodes c.id = some c' ∧
    c'.metrics.in_reference = c.metrics.in_reference ∧
    ∀ i l r ts, (Transaction.new i l r ts).metrics.in_reference = 0 := by
  obtain ⟨hnone, ps, lp, rp, hp, hlp, hrp, hceq, hnum, hnodes, hlast, hmost⟩ :=
    add_node_ok_elim h
  refine ⟨?_, ?_, fun i l r ts => rfl⟩
  · rw [hnodes]
    simp
  · rw [hceq]

/-- C2: on every successful `add`, each named parent's `in_reference` rises by
exactly 1 per occurrence in the parent pair (by 2 when both occurrences name
the same transaction), the depth of no parent changes, every other stored
transaction is completely untouched, and the committed candidate's depth is
`min(depth(left), depth(right)) + 1` over the parents' depths at admission
time. -/
theorem claim_C2_success_metrics (g : Graph) (c : Transaction) (g' : Graph)
    (c' : Transaction) (h : g.add_node c = some (Except.ok (), g', c')) :
    ∃ p1 p2, c.parents = some (p1, p2) ∧
      g'.nodes c.id = some c' ∧
      (∀ k t, g.nodes k = some t → k ≠ p1 → k ≠ p2 → g'.nodes k = some t) ∧
      (p1 ≠ p2 → ∃ t1 t2 t1' t2',
        g.nodes p1 = some t1 ∧ g.nodes p2 = some t2 ∧
        g'.nodes p1 = some t1' ∧ g'.nodes p2 = some t2' ∧
        t1'.metrics.in_reference = t1.metrics.in_reference + 1 ∧
        t2'.metrics.in_reference = t2.metrics.in_reference + 1 ∧
        t1'.metrics.depth = t1.metrics.depth ∧ t2'.metrics.depth = t2.metrics.depth ∧
        c'.metrics.depth = min t1.metrics.depth t2.metrics.depth + 1) ∧
      (p1 = p2 → ∃ t1 t1',
        g.nodes p1 = some t1 ∧ g'.nodes p1 = some t1' ∧
        t1'.metrics.in_reference = t1.metrics.in_reference + 2 ∧
        t1'.metrics.depth = t1.metrics.depth ∧
        c'.metrics.depth = t1.metrics.depth + 1) := by
  obtain ⟨hnone, ps, lp, rp, hp, hlp, hrp, hceq, hnum, hnodes, hlast, hmost⟩ :=
    add_node_ok_elim h
  have hp1cid : ps.1 ≠ c.id := by
    intro hcontra
    rw [hcontra, hnone] at hlp
    cases hlp
  refine ⟨ps.1, ps.2, by rw [hp], ?_, ?_, ?_, ?_⟩
  · rw [hnodes]
    simp
  · intro k t hk hk1 hk2
    have hkc : k ≠ c.id := by
      intro hcontra
      rw [hcontra, hnone] at hk
      cases hk
    rw [hnodes]
    simp only [bumpNodes, if_neg hkc, if_neg hk2, if_neg hk1]
    exact hk
  · intro hne
    have hne' : ps.2 ≠ ps.1 := fun e => hne e.symm
    rw [if_neg hne'] at hrp
    have hp2cid : ps.2 ≠ c.id := by
      intro hcontra
      rw [hcontra, hnone] at hrp
      cases hrp
    refine ⟨lp, rp, bump lp, bump rp, hlp, hrp, ?_, ?_, rfl, rfl, rfl, rfl, ?_⟩
    · rw [hnodes]
      simp [bumpNodes, hp1cid, hne]
    · rw [hnodes]
      simp [bumpNodes, hp2cid]
    · rw [hceq]
      rfl
  · intro heq
    rw [if_pos heq.symm] at hrp
    injection hrp with hrp
    have hp2cid : ps.2 ≠ c.id := heq ▸ hp1cid
    refine ⟨lp, bump rp, hlp, ?_, ?_, ?_, ?_⟩
    · rw [hnodes]
      simp [bumpNodes, hp1cid, hp2cid, heq]
    · rw [← hrp]
      show lp.metrics.in_reference + 1 + 1 = lp.metrics.in_reference + 2
      omega
    · rw [← hrp]
      rfl
    · rw [hceq, ← hrp]
      show min lp.metrics.depth lp.metrics.depth + 1 = lp.metrics.depth + 1
      rw [min_self]

/-- The graph produced by a concrete successful `add_node` call. -/
def wit2Graph : Graph :=
  ((Graph.with_capacity 1).add_node (Transaction.new 2 1 1 5)).elim
    (Graph.with_capacity 0) (fun r => r.2.1)

/-- The committed candidate of that same call. -/
def wit2Node : Transaction :=
  ((Graph.with_capacity 1).add_node (Transaction.new 2 1 1 5)).elim
    ROOT_NODE (fun r => r.2.2)

/-- Witness for C2 at a concrete successful call with both parents equal to
the root. -/
theorem claim_C2_witness :
    (Graph.with_capacity 1).add_node (Transaction.new 2 1 1 5) =
      some (Except.ok (), wit2Graph, wit2Node) ∧
    ∃ p1 p2, (Transaction.new 2 1 1 5).parents = some (p1, p2) ∧
      wit2Graph.nodes (Transaction.new 2 1 1 5).id = some wit2Node := by
  refine ⟨rfl, ?_⟩
  obtain ⟨p1, p2, hp, hcommit, _⟩ :=
    claim_C2_success_metrics (Graph.with_capacity 1) (Transaction.new 2 1 1 5)
      wit2Graph wit2Node rfl
  exact ⟨p1, p2, hp, hcommit⟩

/-- Internal invariant of reachable graphs: stored transactions carry the id
they are keyed under, and each summary field, when set (nonzero), refers to a
stored transaction. -/
def GInv (g : Graph) : Prop :=
  (∀ k t, g.nodes k = some t → t.id = k) ∧
  (g.metrics.last_transaction ≠ 0 →
    (g.nodes g.metrics.last_transaction).isSome = true) ∧
  (g.metrics.most_in_reference_transaction ≠ 0 →
    (g.nodes g.metrics.most_in_reference_transaction).isSome = true)

theorem bumpNodes_isSome {nodes : Nat → Option Transaction} {p1 p2 : Nat}
    {lp rp : Transaction} {k : Nat} (hk : (nodes k).isSome = true) :
    (bumpNodes nodes p1 p2 lp rp k).isSome = true := by
  unfold bumpNodes
  by_cases h2 : k = p2
  · rw [if_pos h2]; rfl
  · rw [if_neg h2]
    by_cases h1 : k = p1
    · rw [if_pos h1]; rfl
    · rw [if_neg h1]; exact hk

theorem bumpNodes_fst_isSome {nodes : Nat → Option Transaction} {p1 p2 : Nat}
    {lp rp : Transaction} : (bumpNodes nodes p1 p2 lp rp p1).isSome = true := by
  unfold bumpNodes
  by_cases h2 : p1 = p2
  · rw [if_pos h2]; rfl
  · rw [if_neg h2, if_pos rfl]; rfl

theorem bumpNodes_snd_isSome {nodes : Nat → Option Transaction} {p1 p2 : Nat}
    {lp rp : Transaction} : (bumpNodes nodes p1 p2 lp rp p2).isSome = true := by
  unfold bumpNodes
  rw [if_pos rfl]; rfl

/-- The ids stored in the two bumped parent entries are the parent keys. -/
theorem parent_ids {g : Graph} {ps : Nat × Nat} {lp rp : Transaction}
    (hkey : ∀ k t, g.nodes k = some t → t.id = k)
    (hlp : g.nodes ps.1 = some lp)
    (hrp : (if ps.2 = ps.1 then some (bump lp) else g.nodes ps.2) = some rp) :
    lp.id = ps.1 ∧ rp.id = ps.2 := by
  have hl := hkey _ _ hlp
  refine ⟨hl, ?_⟩
  by_cases hpp : ps.2 = ps.1
  · rw [if_pos hpp] at hrp
    injection hrp with hrp
    rw [← hrp]
    show lp.id = ps.2
    rw [hl, hpp]
  · rw [if_neg hpp] at hrp
    exact hkey _ _ hrp

theorem reachable_ginv {g : Graph} (h : Reachable g) : GInv g := by
  induction h with
  | base n =>
    refine ⟨?_, ?_, ?_⟩
    · intro k t hk
      by_cases h1 : k = 1
      · subst h1
        have h2 : some ROOT_NODE = some t := by
          simpa [Graph.with_capacity] using hk
        injection h2 with h2
        rw [← h2]
        rfl
      · exfalso
        simp [Graph.with_capacity, h1] at hk
    · intro h0; exact absurd rfl h0
    · intro h0; exact absurd rfl h0
  | step hprev heq ih =>
    rename_i g0 c r g' c'
    cases r with
    | error e =>
      obtain ⟨hg, _⟩ := add_node_error_elim heq
      rw [hg]
      exact ih
    | ok u =>
      cases u
      obtain ⟨hnone, ps, lp, rp, hp, hlp, hrp, hceq, hnum, hnodes, hlast, hmost⟩ :=
        add_node_ok_elim heq
      obtain ⟨hlid, hrid⟩ := parent_ids ih.1 hlp hrp
      refine ⟨?_, ?_, ?_⟩
      · intro k t hk
        rw [hnodes] at hk
        dsimp only at hk
        by_cases hkc : k = c.id
        · rw [if_pos hkc] at hk
          injection hk with hk
          rw [← hk, hceq, hkc]
        · rw [if_neg hkc] at hk
          unfold bumpNodes at hk
          by_cases hk2 : k = ps.2
          · rw [if_pos hk2] at hk
            injection hk with hk
            rw [← hk]
            show rp.id = k
            rw [hrid, hk2]
          · rw [if_neg hk2] at hk
            by_cases hk1 : k = ps.1
            · rw [if_pos hk1] at hk
              injection hk with hk
              rw [← hk]
              show lp.id = k
              rw [hlid, hk1]
            · rw [if_neg hk1] at hk
              exact ih.1 _ _ hk
      · intro h0
        rw [hnodes]
        dsimp only
        rcases hlast with ⟨hz, hnext⟩ | ⟨hz, tb, htb, hnext⟩
        · rw [hnext, if_pos rfl]
          rfl
        · rw [hnext]
          by_cases hlt : tb.timestamp < c.timestamp
        
          · rw [if_pos hlt, if_pos rfl]
            rfl
          · rw [if_neg hlt]
            by_cases hlc : g0.metrics.last_transaction = c.id
            · rw [if_pos hlc]; rfl
            · rw [if_neg hlc]
              rw [htb]
              rfl
      · intro h0
        rw [hnodes]
        dsimp only
        obtain ⟨m1, hs1, hs2⟩ := hmost
        have hm1v : (bumpNodes g0.nodes ps.1 ps.2 lp rp m1).isSome = true := by
          rcases hs1 with ⟨hz, hnext⟩ | ⟨hz, tb, htb, hnext⟩
          · rw [hnext]
            show (bumpNodes g0.nodes ps.1 ps.2 lp rp lp.id).isSome = true
            rw [hlid]
            exact bumpNodes_fst_isSome
          · rw [hnext]
            by_cases hcmp : tb.metrics.in_reference < (bump lp).metrics.in_reference
            · rw [if_pos hcmp]
              show (bumpNodes g0.nodes ps.1 ps.2 lp rp lp.id).isSome = true
              rw [hlid]
              exact bumpNodes_fst_isSome
            · rw [if_neg hcmp]
              rw [htb]
              rfl
        rcases hs2 with ⟨hz, hnext⟩ | ⟨hz, tb, htb, hnext⟩
        · rw [hnext]
          by_cases hrc : (bump rp).id = c.id
          · rw [if_pos hrc]; rfl
          · rw [if_neg hrc]
            show (bumpNodes g0.nodes ps.1 ps.2 lp rp rp.id).isSome = true
            rw [hrid]
            exact bumpNodes_snd_isSome
        · rw [hnext]
          by_cases hcmp : tb.metrics.in_reference < (bump rp).metrics.in_reference
          · rw [if_pos hcmp]
            by_cases hrc : (bump rp).id = c.id
            · rw [if_pos hrc]; rfl
            · rw [if_neg hrc]
              show (bumpNodes g0.nodes ps.1 ps.2 lp rp rp.id).isSome = true
              rw [hrid]
              exact bumpNodes_snd_isSome
          · rw [if_neg hcmp]
            by_cases hmc : m1 = c.id
            · rw [if_pos hmc]; rfl
            · rw [if_neg hmc]
              exact hm1v

theorem update_last_some (g : Graph) (c : Transaction)
    (h : g.metrics.last_transaction ≠ 0 →
      (g.nodes g.metrics.last_transaction).isSome = true) :
    ∃ g', g.update_last_transaction c = some g' := by
  unfold Graph.update_last_transaction
  by_cases h0 : g.metrics.last_transaction = 0
  · rw [if_pos h0]
    exact ⟨_, rfl⟩
  · rw [if_neg h0]
    obtain ⟨t, ht⟩ := Option.isSome_iff_exists.mp (h h0)
    rw [ht]
    dsimp only
    by_cases hlt : t.timestamp < c.timestamp
    · rw [if_pos hlt]
      exact ⟨_, rfl⟩
    · rw [if_neg hlt]
      exact ⟨_, rfl⟩

theorem update_most_some (g : Graph) (snap : Nat × TransactionMetrics)
    (h : g.metrics.most_in_reference_transaction ≠ 0 →
      (g.nodes g.metrics.most_in_reference_transaction).isSome = true) :
    ∃ g', g.update_most_in_reference_transaction snap = some g' := by
  unfold Graph.update_most_in_reference_transaction
  dsimp only
  by_cases h0 : g.metrics.most_in_reference_transaction = 0
  · rw [if_pos h0]
    exact ⟨_, rfl⟩
  · rw [if_neg h0]
    obtain ⟨t, ht⟩ := Option.isSome_iff_exists.mp (h h0)
    rw [ht]
    dsimp only
    by_cases hlt : t.metrics.in_reference < snap.2.in_reference
    · rw [if_pos hlt]
      exact ⟨_, rfl⟩
    · rw [if_neg hlt]
      exact ⟨_, rfl⟩

/-- If both parents of a validated candidate are present and the summary
fields are valid, `update_metrics` completes (no internal `expect` fires). -/
theorem update_metrics_some (g : Graph) (c : Transaction) (ps : Nat × Nat)
    (hp : c.parents = some ps)
    (h1 : (g.nodes ps.1).isSome = true) (h2 : (g.nodes ps.2).isSome = true)
    (hkey : ∀ k t, g.nodes k = some t → t.id = k)
    (hlastv : g.metrics.last_transaction ≠ 0 →
      (g.nodes g.metrics.last_transaction).isSome = true)
    (hmostv : g.metrics.most_in_reference_transaction ≠ 0 →
      (g.nodes g.metrics.most_in_reference_transaction).isSome = true) :
    ∃ pr, g.update_metrics c = some pr := by
  obtain ⟨lp, hlp⟩ := Option.isSome_iff_exists.mp h1
  have hrpe : ∃ rp, (if ps.2 = ps.1 then some (bump lp) else g.nodes ps.2) = some rp := by
    by_cases hpp : ps.2 = ps.1
    · exact ⟨bump lp, by rw [if_pos hpp]⟩
    · obtain ⟨rp, hrp⟩ := Option.isSome_iff_exists.mp h2
      exact ⟨rp, by rw [if_neg hpp, hrp]⟩
  obtain ⟨rp, hrp⟩ := hrpe
  obtain ⟨hlid, hrid⟩ := parent_ids hkey hlp hrp
  rw [update_metrics_canon g c ps lp hp hlp, hrp]
  dsimp only
  have hlastB : ({ g with nodes := bumpNodes g.nodes ps.1 ps.2 lp rp } : Graph).metrics.last_transaction ≠ 0 →
      (({ g with nodes := bumpNodes g.nodes ps.1 ps.2 lp rp } : Graph).nodes
        ({ g with nodes := bumpNodes g.nodes ps.1 ps.2 lp rp } : Graph).metrics.last_transaction).isSome = true := by
    intro h0
    exact bumpNodes_isSome (hlastv h0)
  obtain ⟨g3, hg3⟩ := update_last_some
    ({ g with nodes := bumpNodes g.nodes ps.1 ps.2 lp rp })
    ({ c with metrics := { c.metrics with
      depth := min (bump lp).metrics.depth (bump rp).metrics.depth + 1 } }) hlastB
  rw [hg3]
  dsimp only
  obtain ⟨hn3, hnum3, hmost3, hlast3⟩ := update_last_elim hg3
  have hmost3v : g3.metrics.most_in_reference_transaction ≠ 0 →
      (g3.nodes g3.metrics.most_in_reference_transaction).isSome = true := by
    intro h0
    rw [hmost3] at h0
    rw [hn3, hmost3]
    exact bumpNodes_isSome (hmostv h0)
  obtain ⟨g4, hg4⟩ := update_most_some g3 ((bump lp).id, (bump lp).metrics) hmost3v
  rw [hg4]
  dsimp only
  obtain ⟨hn4, hnum4, hlast4, hstep4⟩ := update_most_elim hg4
  have hmost4v : g4.metrics.most_in_reference_transaction ≠ 0 →
      (g4.nodes g4.metrics.most_in_reference_transaction).isSome = true := by
    intro h0
    rw [hn4, hn3]
    rcases hstep4 with ⟨hz, hnext⟩ | ⟨hz, tb, htb, hnext⟩
    · rw [hnext]
      show (bumpNodes g.nodes ps.1 ps.2 lp rp lp.id).isSome = true
      rw [hlid]
      exact bumpNodes_fst_isSome
    · rw [hnext]
      by_cases hcmp : tb.metrics.in_reference < (bump lp).metrics.in_reference
      · rw [if_pos hcmp]
        show (bumpNodes g.nodes ps.1 ps.2 lp rp lp.id).isSome = true
        rw [hlid]
        exact bumpNodes_fst_isSome
      · rw [if_neg hcmp]
        rw [hn3] at htb
        rw [htb]
        rfl
  obtain ⟨g5, hg5⟩ := update_most_some g4 ((bump rp).id, (bump rp).metrics) hmost4v
  rw [hg5]
  exact ⟨_, rfl⟩

/-- C9: on every graph reachable through the public interface, once the three
validation checks pass, all internal parent and summary lookups succeed, so
the `expect`/`unwrap` assertions are unreachable and `add` completes
successfully (in the model: it never returns the panic value `none` on the
success path). -/
theorem claim_C9_no_panic (g : Graph) (hr : Reachable g) (c : Transaction)
    (p1 p2 : Nat) (hp : c.parents = some (p1, p2))
    (hdup : g.exists_node c.id = false)
    (h1 : g.exists_node p1 = true) (h2 : g.exists_node p2 = true) :
    ∃ g' c', g.add_node c = some (Except.ok (), g', c') := by
  obtain ⟨hkey, hlastv, hmostv⟩ := reachable_ginv hr
  obtain ⟨pr, hum⟩ := update_metrics_some g c (p1, p2) hp h1 h2 hkey hlastv hmostv
  refine ⟨pr.1.add_vertex pr.2, pr.2, ?_⟩
  simp [Graph.add_node, hdup, hp, h1, h2, hum]

/-- Witness for C9: a concrete reachable graph and a concrete validated
candidate on which `add` completes successfully. -/
theorem claim_C9_witness :
    ∃ g' c', (Graph.with_capacity 1).add_node (Transaction.new 2 1 1 0) =
      some (Except.ok (), g', c') :=
  claim_C9_no_panic (Graph.with_capacity 1) (Reachable.base 1)
    (Transaction.new 2 1 1 0) 1 1 rfl rfl rfl rfl

/-- A successful `add` keeps every previously stored transaction at its key,
preserving id, parents, timestamp and depth, and never decreasing
`in_reference`. -/
theorem add_ok_preserves {g : Graph} {c : Transaction} {g' : Graph} {c' : Transaction}
    (h : g.add_node c = some (Except.ok (), g', c')) :
    ∀ k t, g.nodes k = some t → ∃ t', g'.nodes k = some t' ∧
      t'.id = t.id ∧ t'.parents = t.parents ∧ t'.timestamp = t.timestamp ∧
      t'.metrics.depth = t.metrics.depth ∧
      t.metrics.in_reference ≤ t'.metrics.in_reference := by
  obtain ⟨hnone, ps, lp, rp, hp, hlp, hrp, hceq, hnum, hnodes, hlast, hmost⟩ :=
    add_node_ok_elim h
  intro k t hk
  have hkc : k ≠ c.id := by
    intro e
    rw [e, hnone] at hk
    cases hk
  rw [hnodes]
  dsimp only
  rw [if_neg hkc]
  unfold bumpNodes
  by_cases hk2 : k = ps.2
  · rw [if_pos hk2]
    by_cases hpp : ps.2 = ps.1
    · rw [if_pos hpp] at hrp
      injection hrp with hrp
      rw [hk2, hpp, hlp] at hk
      injection hk with hk
      subst hk
      refine ⟨bump rp, rfl, ?_, ?_, ?_, ?_, ?_⟩ <;> rw [← hrp]
      · rfl
      · rfl
      · rfl
      · rfl
      · show lp.metrics.in_reference ≤ lp.metrics.in_reference + 1 + 1
        omega
    · rw [if_neg hpp] at hrp
      rw [hk2, hrp] at hk
      injection hk with hk
      subst hk
      refine ⟨bump rp, rfl, rfl, rfl, rfl, rfl, ?_⟩
      show rp.metrics.in_reference ≤ rp.metrics.in_reference + 1
      omega
  · rw [if_neg hk2]
    by_cases hk1 : k = ps.1
    · rw [if_pos hk1]
      rw [hk1, hlp] at hk
      injection hk with hk
      subst hk
      refine ⟨bump lp, rfl, rfl, rfl, rfl, rfl, ?_⟩
      show lp.metrics.in_reference ≤ lp.metrics.in_reference + 1
      omega
    · rw [if_neg hk1]
      exact ⟨t, hk, rfl, rfl, rfl, rfl, Nat.le_refl _⟩

/-- A successful `add` never decreases any key's stored `in_reference`. -/
theorem add_ok_ir_mono {g : Graph} {c : Transaction} {g' : Graph} {c' : Transaction}
    (h : g.add_node c = some (Except.ok (), g', c')) (k : Nat) :
    irOf g k ≤ irOf g' k := by
  unfold irOf
  cases hk : g.nodes k with
  | none => exact Nat.zero_le _
  | some t =>
    obtain ⟨t', ht', _, _, _, _, hle⟩ := add_ok_preserves h k t hk
    rw [ht']
    exact hle

/-- The bumped map has an entry exactly where the original map does. -/
theorem bumpNodes_isSome_iff {nodes : Nat → Option Transaction} {ps : Nat × Nat}
    {lp rp : Transaction} (hlp : nodes ps.1 = some lp)
    (hrp : (if ps.2 = ps.1 then some (bump lp) else nodes ps.2) = some rp) (k : Nat) :
    (bumpNodes nodes ps.1 ps.2 lp rp k).isSome = (nodes k).isSome := by
  unfold bumpNodes
  by_cases hk2 : k = ps.2
  · rw [if_pos hk2]
    by_cases hpp : ps.2 = ps.1
    · rw [hk2, hpp, hlp]
      rfl
    · rw [if_neg hpp] at hrp
      rw [hk2, hrp]
      rfl
  · rw [if_neg hk2]
    by_cases hk1 : k = ps.1
    · rw [if_pos hk1, hk1, hlp]
      rfl
    · rw [if_neg hk1]

/-- The batch-insertion loop keeps every previously stored transaction,
preserving id, parents and timestamp. -/
theorem addLoop_ok_preserves :
    ∀ (ns : List Transaction) (g gres : Graph),
    addLoop g ns = some (Except.ok gres) →
    ∀ k t, g.nodes k = some t → ∃ t', gres.nodes k = some t' ∧
      t'.id = t.id ∧ t'.parents = t.parents ∧ t'.timestamp = t.timestamp := by
  intro ns
  induction ns with
  | nil =>
    intro g gres h k t hk
    injection h with h
    injection h with h
    rw [← h]
    exact ⟨t, hk, rfl, rfl, rfl⟩
  | cons c ns ih =>
    intro g gres h k t hk
    unfold addLoop at h
    cases han : g.add_node c with
    | none => rw [han] at h; cases h
    | some res =>
      rw [han] at h
      obtain ⟨r, g1, c1⟩ := res
      cases r with
      | error e =>
        dsimp only at h
        injection h with h
        exact Except.noConfusion h
      | ok u =>
        cases u
        dsimp only at h
        obtain ⟨t1, ht1, hid1, hpar1, hts1, _, _⟩ := add_ok_preserves han k t hk
        obtain ⟨t2, ht2, hid2, hpar2, hts2⟩ := ih g1 gres h k t1 ht1
        exact ⟨t2, ht2, hid2.trans hid1, hpar2.trans hpar1, hts2.trans hts1⟩

/-- Key-range invariant of the batch loop: starting from a store whose keys
are exactly `1..m` and inserting candidates with sequential ids `m+1, m+2, …`
yields keys exactly `1..m+len`, an unchanged `num_nodes`, and every candidate
stored under its own id with its parents and timestamp. -/
theorem addLoop_ok_inv :
    ∀ (ns : List Transaction) (g : Graph) (m : Nat) (gres : Graph),
    (∀ k, ((g.nodes k).isSome = true) ↔ (1 ≤ k ∧ k ≤ m)) →
    (∀ (i : Nat) (t : Transaction), ns[i]? = some t → t.id = m + 1 + i) →
    addLoop g ns = some (Except.ok gres) →
    gres.num_nodes = g.num_nodes ∧
    (∀ k, ((gres.nodes k).isSome = true) ↔ (1 ≤ k ∧ k ≤ m + ns.length)) ∧
    (∀ (i : Nat) (t : Transaction), ns[i]? = some t → ∃ t', gres.nodes t.id = some t' ∧
      t'.id = t.id ∧ t'.parents = t.parents ∧ t'.timestamp = t.timestamp) := by
  intro ns
  induction ns with
  | nil =>
    intro g m gres hkeys hids h
    injection h with h
    injection h with h
    subst h
    refine ⟨rfl, ?_, ?_⟩
    · intro k
      simpa using hkeys k
    · intro i t hti
      cases hti
  | cons c ns ih =>
    intro g m gres hkeys hids h
    unfold addLoop at h
    cases han : g.add_node c with
    | none => rw [han] at h; cases h
    | some res =>
      rw [han] at h
      obtain ⟨r, g1, c1⟩ := res
      cases r with
      | error e =>
        dsimp only at h
        injection h with h
        exact Except.noConfusion h
      | ok u =>
        cases u
        dsimp only at h
        have hcid : c.id = m + 1 := by
          have := hids 0 c (by rw [List.getElem?_cons_zero])
          simpa using this
        obtain ⟨hnone, ps, lp, rp, hp, hlp, hrp, hceq, hnum, hnodes, hlast, hmost⟩ :=
          add_node_ok_elim han
        have hkeys1 : ∀ k, ((g1.nodes k).isSome = true) ↔ (1 ≤ k ∧ k ≤ m + 1) := by
          intro k
          rw [hnodes]
          dsimp only
          by_cases hkc : k = c.id
          · rw [if_pos hkc]
            constructor
            · intro _
              omega
            · intro _
              rfl
          · rw [if_neg hkc]
            rw [bumpNodes_isSome_iff hlp hrp k]
            rw [hkeys k]
            have : k ≠ m + 1 := by
              rw [← hcid]
              exact hkc
            omega
        have hids1 : ∀ (i : Nat) (t : Transaction), ns[i]? = some t → t.id = (m + 1) + 1 + i := by
          intro i t hti
          have := hids (i + 1) t (by rw [List.getElem?_cons_succ]; exact hti)
          omega
        obtain ⟨hnumres, hkeysres, hcontres⟩ := ih g1 (m + 1) gres hkeys1 hids1 h
        refine ⟨hnumres.trans hnum, ?_, ?_⟩
        · intro k
          rw [List.length_cons, show m + (ns.length + 1) = m + 1 + ns.length from by omega]
          exact hkeysres k
        · intro i t hti
          cases i with
          | zero =>
            rw [List.getElem?_cons_zero] at hti
            injection hti with hti
            subst hti
            have hstored : g1.nodes c.id = some c1 := by
              rw [hnodes]
              simp
            obtain ⟨t2, ht2, hid2, hpar2, hts2⟩ :=
              addLoop_ok_preserves ns g1 gres h c.id c1 hstored
            refine ⟨t2, ht2, ?_, ?_, ?_⟩
            · rw [hid2, hceq]
            · rw [hpar2, hceq]
            · rw [hts2, hceq]
          | succ i =>
            rw [List.getElem?_cons_succ] at hti
            exact hcontres i t hti

/-- If the batch loop returns an error, some prefix of insertions succeeded
and the next insertion failed with exactly that error. -/
theorem addLoop_error_elim :
    ∀ (ns : List Transaction) (g : Graph) (e : GraphError),
    addLoop g ns = some (Except.error e) →
    ∃ (i : Nat) (t : Transaction) (gi : Graph), ns[i]? = some t ∧
      addAll g (ns.take i) = some gi ∧
      ∃ g'' c'', gi.add_node t = some (Except.error e, g'', c'') := by
  intro ns
  induction ns with
  | nil =>
    intro g e h
    injection h with h
    exact Except.noConfusion h
  | cons c ns ih =>
    intro g e h
    unfold addLoop at h
    cases han : g.add_node c with
    | none => rw [han] at h; cases h
    | some res =>
      rw [han] at h
      obtain ⟨r, g1, c1⟩ := res
      cases r with
      | error e' =>
        dsimp only at h
        injection h with h
        injection h with h
        subst h
        exact ⟨0, c, g, by rw [List.getElem?_cons_zero], rfl, g1, c1, han⟩
      | ok u =>
        cases u
        dsimp only at h
        obtain ⟨i, t, gi, hget, hall, hfail⟩ := ih g1 e h
        refine ⟨i + 1, t, gi, ?_, ?_, hfail⟩
        · rw [List.getElem?_cons_succ]
          exact hget
        · rw [List.take_succ_cons]
          unfold addAll
          rw [han]
          exact hall

theorem mkNodes_getElem? (values : List (Nat × Nat × Nat)) (i : Nat) :
    (mkNodes values)[i]? = (values[i]?).map
      (fun v => Transaction.new (i + 2) v.1 v.2.1 v.2.2) := by
  unfold mkNodes
  rw [List.getElem?_map, List.getElem?_enum]
  cases values[i]? <;> rfl

theorem mkNodes_length (values : List (Nat × Nat × Nat)) :
    (mkNodes values).length = values.length := by
  unfold mkNodes
  rw [List.length_map, List.enum_length]

/-- C7: `build` (the `TryFrom` instance) assigns sequential ids starting at 2
in list order, sizes the fresh graph by the input length, and inserts in
order.  On success the graph holds exactly ids `1..n+1`, with the i-th triple
stored under id `i+2` carrying its parents and timestamp; on failure the
returned value is the error of the first failing insertion (after a
successful prefix) and no graph is returned. -/
theorem claim_C7_build : ∀ values : List (Nat × Nat × Nat),
    (∀ g : Graph, Graph.try_from values = some (Except.ok g) →
      g.num_nodes = values.length + 1 ∧
      (∀ k, ((g.nodes k).isSome = true) ↔ (1 ≤ k ∧ k ≤ values.length + 1)) ∧
      (∀ (i : Nat) (v : Nat × Nat × Nat), values[i]? = some v →
        ∃ t, g.nodes (i + 2) = some t ∧ t.id = i + 2 ∧
          t.parents = some (v.1, v.2.1) ∧ t.timestamp = v.2.2)) ∧
    (∀ e : GraphError, Graph.try_from values = some (Except.error e) →
      ∃ (i : Nat) (v : Nat × Nat × Nat) (gi : Graph), values[i]? = some v ∧
        addAll (Graph.with_capacity values.length) ((mkNodes values).take i) = some gi ∧
        ∃ g'' c'', gi.add_node (Transaction.new (i + 2) v.1 v.2.1 v.2.2) =
          some (Except.error e, g'', c'')) := by
  intro values
  constructor
  · intro g h
    unfold Graph.try_from at h
    have hkeys0 : ∀ k,
        (((Graph.with_capacity values.length).nodes k).isSome = true) ↔ (1 ≤ k ∧ k ≤ 1) := by
      intro k
      by_cases hk : k = 1
      · simp [Graph.with_capacity, hk]
      · simp [Graph.with_capacity, hk]
        omega
    have hids0 : ∀ (i : Nat) (t : Transaction),
        (mkNodes values)[i]? = some t → t.id = 1 + 1 + i := by
      intro i t hti
      rw [mkNodes_getElem?] at hti
      cases hv : values[i]? with
      | none => rw [hv] at hti; cases hti
      | some v =>
        rw [hv] at hti
        injection hti with hti
        rw [← hti]
        show i + 2 = 1 + 1 + i
        omega
    obtain ⟨hnum, hkeys, hcont⟩ :=
      addLoop_ok_inv (mkNodes values) (Graph.with_capacity values.length) 1 g hkeys0 hids0 h
    refine ⟨?_, ?_, ?_⟩
    · rw [hnum]
      rfl
    · intro k
      rw [hkeys k, mkNodes_length]
      omega
    · intro i v hv
      have hmk : (mkNodes values)[i]? = some (Transaction.new (i + 2) v.1 v.2.1 v.2.2) := by
        rw [mkNodes_getElem?, hv]
        rfl
      obtain ⟨t', ht', hid', hpar', hts'⟩ := hcont i _ hmk
      refine ⟨t', ht', ?_, ?_, ?_⟩
      · rw [hid']
        rfl
      · rw [hpar']
        rfl
      · rw [hts']
        rfl
  · intro e h
    unfold Graph.try_from at h
    obtain ⟨i, t, gi, hget, hall, hfail⟩ := addLoop_error_elim (mkNodes values) _ e h
    rw [mkNodes_getElem?] at hget
    cases hv : values[i]? with
    | none => rw [hv] at hget; cases hget
    | some v =>
      rw [hv] at hget
      injection hget with hget
      have hget' : Transaction.new (i + 2) v.1 v.2.1 v.2.2 = t := hget
      refine ⟨i, v, gi, hv, hall, ?_⟩
      rw [hget']
      exact hfail

/-- The graph produced by the concrete successful `build` of the spec's
Scenario 5. -/
def wit7Graph : Graph :=
  match Graph.try_from [(1,1,5),(1,2,3)] with
  | some (Except.ok g) => g
  | _ => Graph.with_capacity 0

/-- Witness for C7 at the spec's Scenario 5 input. -/
theorem claim_C7_witness :
    Graph.try_from [(1,1,5),(1,2,3)] = some (Except.ok wit7Graph) ∧
    wit7Graph.num_nodes = 3 ∧
    ((wit7Graph.nodes 3).isSome = true ↔ (1 ≤ 3 ∧ 3 ≤ 3)) := by
  refine ⟨rfl, ?_, ?_⟩
  · obtain ⟨hnum, hkeys, hcont⟩ := (claim_C7_build [(1,1,5),(1,2,3)]).1 wit7Graph rfl
    exact hnum
  · obtain ⟨hnum, hkeys, hcont⟩ := (claim_C7_build [(1,1,5),(1,2,3)]).1 wit7Graph rfl
    exact hkeys 3

theorem addAll_append (g : Graph) (xs ys : List Transaction) :
    addAll g (xs ++ ys) = (addAll g xs).bind (fun gp => addAll gp ys) := by
  induction xs generalizing g with
  | nil => rfl
  | cons c xs ih =>
    show addAll g (c :: (xs ++ ys)) = _
    unfold addAll
    cases han : g.add_node c with
    | none => rfl
    | some res =>
      obtain ⟨r, g1, c1⟩ := res
      cases r with
      | error e => rfl
      | ok u =>
        dsimp only
        rw [ih g1]
        refine congrArg _ (funext fun a => ?_)
        cases ys <;> rfl

theorem addAll_snoc (g : Graph) (xs : List Transaction) (c : Transaction) :
    addAll g (xs ++ [c]) =
      match addAll g xs with
      | some gp => addOk gp c
      | none => none := by
  rw [addAll_append]
  cases addAll g xs with
  | none => rfl
  | some gp =>
    show addAll gp [c] = addOk gp c
    unfold addAll addOk
    cases gp.add_node c with
    | none => rfl
    | some res =>
      obtain ⟨r, g1, c1⟩ := res
      cases r <;> rfl

theorem addOk_elim {g : Graph} {c : Transaction} {g' : Graph}
    (h : addOk g c = some g') :
    ∃ c', g.add_node c = some (Except.ok (), g', c') := by
  unfold addOk at h
  cases han : g.add_node c with
  | none => rw [han] at h; cases h
  | some res =>
    rw [han] at h
    obtain ⟨r, g1, c1⟩ := res
    cases r with
    | error e => dsimp only at h; cases h
    | ok u =>
      cases u
      dsimp only at h
      injection h with h
      subst h
      exact ⟨c1, rfl⟩

theorem addAll_ir_mono : ∀ (cs : List Transaction) (g g' : Graph),
    addAll g cs = some g' → ∀ k, irOf g k ≤ irOf g' k := by
  intro cs
  induction cs with
  | nil =>
    intro g g' h k
    injection h with h
    subst h
    exact Nat.le_refl _
  | cons c cs ih =>
    intro g g' h k
    unfold addAll at h
    cases han : g.add_node c with
    | none => rw [han] at h; cases h
    | some res =>
      rw [han] at h
      obtain ⟨r, g1, c1⟩ := res
      cases r with
      | error e => dsimp only at h; cases h
      | ok u =>
        cases u
        dsimp only at h
        exact Nat.le_trans (add_ok_ir_mono han k) (ih g1 g' h k)

theorem addAll_take_some {g gfin : Graph} {cs : List Transaction}
    (h : addAll g cs = some gfin) (j : Nat) :
    ∃ gj, addAll g (cs.take j) = some gj := by
  have happ := addAll_append g (cs.take j) (cs.drop j)
  rw [List.take_append_drop, h] at happ
  cases hj : addAll g (cs.take j) with
  | none =>
    rw [hj] at happ
    cases happ
  | some gj => exact ⟨gj, rfl⟩

/-- The `in_reference` of any key at any intermediate stage of a successful
run never exceeds its final value. -/
theorem irAt_le_final {g0 gfin : Graph} {cs : List Transaction}
    (h : addAll g0 cs = some gfin) (j k : Nat) : irAt g0 cs j k ≤ irOf gfin k := by
  unfold irAt
  cases hj : addAll g0 (cs.take j) with
  | none => exact Nat.zero_le _
  | some gj =>
    have happ := addAll_append g0 (cs.take j) (cs.drop j)
    rw [List.take_append_drop, h, hj] at happ
    exact addAll_ir_mono (cs.drop j) gj gfin happ.symm k

theorem with_capacity_nodes {n k : Nat} {t : Transaction}
    (h : (Graph.with_capacity n).nodes k = some t) : k = 1 ∧ t = ROOT_NODE := by
  by_cases hk : k = 1
  · refine ⟨hk, ?_⟩
    rw [hk] at h
    have h2 : some ROOT_NODE = some t := by simpa [Graph.with_capacity] using h
    injection h2 with h2
    exact h2.symm
  · exfalso
    simp [Graph.with_capacity, hk] at h

theorem bumpNodes_cases {nodes : Nat → Option Transaction} {ps : Nat × Nat}
    {lp rp : Transaction} {k : Nat} {u : Transaction}
    (h : bumpNodes nodes ps.1 ps.2 lp rp k = some u) :
    (k = ps.2 ∧ u = bump rp) ∨ (k = ps.1 ∧ u = bump lp) ∨ nodes k = some u := by
  unfold bumpNodes at h
  by_cases hk2 : k = ps.2
  · rw [if_pos hk2] at h
    injection h with h
    exact Or.inl ⟨hk2, h.symm⟩
  · rw [if_neg hk2] at h
    by_cases hk1 : k = ps.1
    · rw [if_pos hk1] at h
      injection h with h
      exact Or.inr (Or.inl ⟨hk1, h.symm⟩)
    · rw [if_neg hk1] at h
      exact Or.inr (Or.inr h)

/-- Every entry of the bumped map has the timestamp of an entry of the
original map at the same key. -/
theorem bumpNodes_ts {nodes : Nat → Option Transaction} {ps : Nat × Nat}
    {lp rp : Transaction} (hlp : nodes ps.1 = some lp)
    (hrp : (if ps.2 = ps.1 then some (bump lp) else nodes ps.2) = some rp)
    {k : Nat} {u : Transaction} (h : bumpNodes nodes ps.1 ps.2 lp rp k = some u) :
    ∃ u0, nodes k = some u0 ∧ u.timestamp = u0.timestamp := by
  rcases bumpNodes_cases h with ⟨hk, hu⟩ | ⟨hk, hu⟩ | hdirect
  · by_cases hpp : ps.2 = ps.1
    · rw [if_pos hpp] at hrp
      injection hrp with hrp
      refine ⟨lp, ?_, ?_⟩
      · rw [hk, hpp]
        exact hlp
      · rw [hu, ← hrp]
        rfl
    · rw [if_neg hpp] at hrp
      refine ⟨rp, ?_, ?_⟩
      · rw [hk]
        exact hrp
      · rw [hu]
        rfl
  · refine ⟨lp, ?_, ?_⟩
    · rw [hk]
      exact hlp
    · rw [hu]
      rfl
  · exact ⟨u, hdirect, rfl⟩

/-- Contents of `last_transaction` after a successful run: the id of the
earliest-admitted candidate whose timestamp is maximal, maximal also over
every stored transaction (root included). -/
def LastInv (cs : List Transaction) (g : Graph) : Prop :=
  ∃ (i : Nat) (ci : Transaction), cs[i]? = some ci ∧
    g.metrics.last_transaction = ci.id ∧
    (∃ t, g.nodes ci.id = some t ∧ t.timestamp = ci.timestamp) ∧
    (∀ k u, g.nodes k = some u → u.timestamp ≤ ci.timestamp) ∧
    (∀ (j : Nat) (cj : Transaction), cs[j]? = some cj → cj.timestamp ≤ ci.timestamp) ∧
    (∀ (j : Nat) (cj : Transaction), j < i → cs[j]? = some cj →
      cj.timestamp < ci.timestamp)

/-- C3 amended: after every nonempty run of successful insertions in which no
candidate carries id 0, `last_transaction` holds the id of an admitted
candidate whose timestamp is maximal among all admitted transactions (root
included), and among the candidates it is the earliest-admitted one with that
timestamp; ties never displace it, and the root itself is never recorded.
(After `create` alone the field is the unset sentinel 0; an admitted
candidate with id 0 re-arms the unset branch and breaks the invariant, hence
the nonzero-id hypothesis.) -/
theorem claim_C3_amended (n : Nat) :
    ∀ (cs : List Transaction) (g : Graph),
    addAll (Graph.with_capacity n) cs = some g →
    (∀ c ∈ cs, c.id ≠ 0) → cs ≠ [] → LastInv cs g := by
  intro cs
  induction cs using List.reverseRecOn with
  | nil =>
    intro g h hids hne
    exact absurd rfl hne
  | append_singleton xs c ih =>
    intro g h hids hne
    rw [addAll_snoc] at h
    cases hp : addAll (Graph.with_capacity n) xs with
    | none => rw [hp] at h; cases h
    | some gp =>
      rw [hp] at h
      dsimp only at h
      obtain ⟨c', hadd⟩ := addOk_elim h
      obtain ⟨hnone, ps, lp, rp, hpar, hlp, hrp, hceq, hnum, hnodes, hlast, hmost⟩ :=
        add_node_ok_elim hadd
      by_cases hxs : xs = []
      · subst hxs
        have hgp : some (Graph.with_capacity n) = some gp := hp
        injection hgp with hgp
        subst hgp
        have hlast0 : g.metrics.last_transaction = c.id := by
          rcases hlast with ⟨_, hnext⟩ | ⟨h0, _⟩
          · exact hnext
          · exact absurd rfl h0
        refine ⟨0, c, by simp, hlast0, ?_, ?_, ?_, ?_⟩
        · refine ⟨c', ?_, by rw [hceq]⟩
          rw [hnodes]
          simp
        · intro k u hu
          rw [hnodes] at hu
          dsimp only at hu
          by_cases hkc : k = c.id
          · rw [if_pos hkc] at hu
            injection hu with hu
            rw [← hu]
            have hcts : c'.timestamp = c.timestamp := by rw [hceq]
            rw [hcts]
          · rw [if_neg hkc] at hu
            obtain ⟨u0, hu0, hts⟩ := bumpNodes_ts hlp hrp hu
            obtain ⟨hk1, hroot⟩ := with_capacity_nodes hu0
            rw [hts, hroot]
            exact Nat.zero_le _
        · intro j cj hj
          cases j with
          | zero =>
            have h2 : some c = some cj := by simpa using hj
            injection h2 with h2
            rw [← h2]
          | succ j =>
            exfalso
            simp at hj
        · intro j cj hjlt hj
          exact absurd hjlt (Nat.not_lt_zero j)
      · have hidsxs : ∀ cc ∈ xs, cc.id ≠ 0 := fun cc hm => hids cc (by simp [hm])
        obtain ⟨i, ci, hci, hlastp, ⟨t, ht, hts⟩, hstoredmax, hcandmax, hstrict⟩ :=
          ih gp hp hidsxs hxs
        have hilen : i < xs.length := by
          obtain ⟨hlen, _⟩ := List.getElem?_eq_some.mp hci
          exact hlen
        have hcine : ci.id ≠ 0 := hidsxs ci (List.getElem?_mem hci)
        have hcidne : ci.id ≠ c.id := by
          intro e
          rw [e, hnone] at ht
          cases ht
        rcases hlast with ⟨h0, _⟩ | ⟨h0, tb, htb, hnext⟩
        · rw [hlastp] at h0
          exact absurd h0 hcine
        · rw [hlastp] at htb hnext
          obtain ⟨u0, hu0, htbts⟩ := bumpNodes_ts hlp hrp htb
          rw [ht] at hu0
          injection hu0 with hu0
          have htbci : tb.timestamp = ci.timestamp := by
            rw [htbts, ← hu0, hts]
          by_cases hlt : tb.timestamp < c.timestamp
          · rw [if_pos hlt] at hnext
            have hltci : ci.timestamp < c.timestamp := by
              rw [← htbci]
              exact hlt
            refine ⟨xs.length, c, List.getElem?_concat_length xs c, hnext, ?_, ?_, ?_, ?_⟩
            · refine ⟨c', ?_, by rw [hceq]⟩
              rw [hnodes]
              simp
            · intro k u hu
              rw [hnodes] at hu
              dsimp only at hu
              by_cases hkc : k = c.id
              · rw [if_pos hkc] at hu
                injection hu with hu
                rw [← hu]
                have hcts : c'.timestamp = c.timestamp := by rw [hceq]
                rw [hcts]
              · rw [if_neg hkc] at hu
                obtain ⟨u0', hu0', hts'⟩ := bumpNodes_ts hlp hrp hu
                rw [hts']
                exact Nat.le_of_lt (Nat.lt_of_le_of_lt (hstoredmax k u0' hu0') hltci)
            · intro j cj hj
              by_cases hjlen : j < xs.length
              · rw [List.getElem?_append_left hjlen] at hj
                exact Nat.le_of_lt (Nat.lt_of_le_of_lt (hcandmax j cj hj) hltci)
              · have hjlen' : xs.length ≤ j := Nat.le_of_not_lt hjlen
                rw [List.getElem?_append_right hjlen'] at hj
                cases hd : j - xs.length with
                | zero =>
                  rw [hd] at hj
                  have h2 : some c = some cj := by simpa using hj
                  injection h2 with h2
                  rw [← h2]
                | succ d =>
                  rw [hd] at hj
                  exfalso
                  simp at hj
            · intro j cj hjlt hj
              rw [List.getElem?_append_left hjlt] at hj
              exact Nat.lt_of_le_of_lt (hcandmax j cj hj) hltci
          · rw [if_neg hlt] at hnext
            have hcle : c.timestamp ≤ ci.timestamp := by
              rw [← htbci]
              exact Nat.le_of_not_lt hlt
            refine ⟨i, ci, ?_, hnext, ?_, ?_, ?_, ?_⟩
            · rw [List.getElem?_append_left hilen]
              exact hci
            · refine ⟨tb, ?_, htbci⟩
              rw [hnodes]
              dsimp only
              rw [if_neg hcidne]
              exact htb
            · intro k u hu
              rw [hnodes] at hu
              dsimp only at hu
              by_cases hkc : k = c.id
              · rw [if_pos hkc] at hu
                injection hu with hu
                rw [← hu]
                have hcts : c'.timestamp = c.timestamp := by rw [hceq]
                rw [hcts]
                exact hcle
              · rw [if_neg hkc] at hu
                obtain ⟨u0', hu0', hts'⟩ := bumpNodes_ts hlp hrp hu
                rw [hts']
                exact hstoredmax k u0' hu0'
            · intro j cj hj
              by_cases hjlen : j < xs.length
              · rw [List.getElem?_append_left hjlen] at hj
                exact hcandmax j cj hj
              · have hjlen' : xs.length ≤ j := Nat.le_of_not_lt hjlen
                rw [List.getElem?_append_right hjlen'] at hj
                cases hd : j - xs.length with
                | zero =>
                  rw [hd] at hj
                  have h2 : some c = some cj := by simpa using hj
                  injection h2 with h2
                  rw [← h2]
                  exact hcle
                | succ d =>
                  rw [hd] at hj
                  exfalso
                  simp at hj
            · intro j cj hjlt hj
              rw [List.getElem?_append_left (Nat.lt_trans hjlt hilen)] at hj
              exact hstrict j cj hjlt hj

/-- Counterexample to C3 as stated: after the successful run that admits a
candidate with id 0 and timestamp 100 and then a candidate with id 2 and
timestamp 5, `last_transaction` is 2, although the admitted transaction with
id 0 holds the strictly larger timestamp 100 — setting the field to id 0
re-armed the "unset" sentinel, so the next insertion overwrote it
unconditionally. -/
theorem claim_C3_counterexample :
    (addAll (Graph.with_capacity 5)
      [Transaction.new 0 1 1 100, Transaction.new 2 1 1 5]).map
      (fun g => (g.metrics.last_transaction, tsOf g 0, tsOf g 2)) = some (2, 100, 5) := by
  rfl

/-- The graph of the concrete one-insertion run used as C3's witness. -/
def wit3Graph : Graph :=
  (addAll (Graph.with_capacity 5) [Transaction.new 2 1 1 5]).elim
    (Graph.with_capacity 0) id

/-- Witness for the amended C3 at a concrete run. -/
theorem claim_C3_witness :
    addAll (Graph.with_capacity 5) [Transaction.new 2 1 1 5] = some wit3Graph ∧
    LastInv [Transaction.new 2 1 1 5] wit3Graph :=
  ⟨rfl, claim_C3_amended 5 [Transaction.new 2 1 1 5] wit3Graph rfl
    (by decide) (by decide)⟩

/-- Auxiliary invariant for the summary-metric proofs: keys match stored ids
and key 0 is never occupied. -/
def AuxInv (g : Graph) : Prop :=
  (∀ k t, g.nodes k = some t → t.id = k) ∧ g.nodes 0 = none

theorem AuxInv_with_capacity (n : Nat) : AuxInv (Graph.with_capacity n) := by
  constructor
  · intro k t hk
    obtain ⟨hk1, hroot⟩ := with_capacity_nodes hk
    rw [hroot, hk1]
    rfl
  · rfl

theorem AuxInv_step {g : Graph} {c : Transaction} {g' : Graph} {c' : Transaction}
    (hA : AuxInv g) (h : g.add_node c = some (Except.ok (), g', c'))
    (hc : c.id ≠ 0) : AuxInv g' := by
  obtain ⟨hnone, ps, lp, rp, hp, hlp, hrp, hceq, hnum, hnodes, hlast, hmost⟩ :=
    add_node_ok_elim h
  obtain ⟨hlid, hrid⟩ := parent_ids hA.1 hlp hrp
  constructor
  · intro k t hk
    rw [hnodes] at hk
    dsimp only at hk
    by_cases hkc : k = c.id
    · rw [if_pos hkc] at hk
      injection hk with hk
      rw [← hk, hceq, hkc]
    · rw [if_neg hkc] at hk
      rcases bumpNodes_cases hk with ⟨hk2, hu⟩ | ⟨hk1, hu⟩ | hdirect
      · rw [hu]
        show rp.id = k
        rw [hrid, hk2]
      · rw [hu]
        show lp.id = k
        rw [hlid, hk1]
      · exact hA.1 _ _ hdirect
  · rw [hnodes]
    dsimp only
    rw [if_neg (fun e => hc e.symm)]
    unfold bumpNodes
    have hp1ne : ps.1 ≠ 0 := by
      intro e
      rw [e, hA.2] at hlp
      cases hlp
    have hp2ne : ps.2 ≠ 0 := by
      by_cases hpp : ps.2 = ps.1
      · rw [hpp]
        exact hp1ne
      · have hrp2 := hrp
        rw [if_neg hpp] at hrp2
        intro e
        rw [e, hA.2] at hrp2
        cases hrp2
    rw [if_neg (fun e => hp2ne e.symm), if_neg (fun e => hp1ne e.symm)]
    exact hA.2

theorem addAll_AuxInv : ∀ (cs : List Transaction) (g0 g : Graph),
    AuxInv g0 → addAll g0 cs = some g → (∀ c ∈ cs, c.id ≠ 0) → AuxInv g := by
  intro cs
  induction cs with
  | nil =>
    intro g0 g hA h _
    injection h with h
    rw [← h]
    exact hA
  | cons c cs ih =>
    intro g0 g hA h hids
    unfold addAll at h
    cases han : g0.add_node c with
    | none => rw [han] at h; cases h
    | some res =>
      rw [han] at h
      obtain ⟨r, g1, c1⟩ := res
      cases r with
      | error e => dsimp only at h; cases h
      | ok u =>
        cases u
        dsimp only at h
        have hstep := AuxInv_step hA (han.trans (by rfl)) (hids c (by simp))
        exact ih g1 g hstep h (fun cc hm => hids cc (by simp [hm]))

theorem irOf_with_capacity (n k : Nat) : irOf (Graph.with_capacity n) k = 0 := by
  unfold irOf Graph.with_capacity
  dsimp only
  by_cases hk : k = 1
  · rw [if_pos hk]
    rfl
  · rw [if_neg hk]

/-- Bound on every entry of the post-insertion node map, given bounds on the
two bumped parents, the fresh zero-`in_reference` candidate, and all other
entries. -/
theorem irOf_g_le {gp g : Graph} {c c' : Transaction} {ps : Nat × Nat}
    {lp rp : Transaction}
    (hnodes : g.nodes = fun k => if k = c.id then some c'
      else bumpNodes gp.nodes ps.1 ps.2 lp rp k)
    (hc'ir : c'.metrics.in_reference = 0)
    (B : Nat)
    (hB2 : rp.metrics.in_reference + 1 ≤ B)
    (hB1 : ps.1 ≠ ps.2 → lp.metrics.in_reference + 1 ≤ B)
    (hBother : ∀ k : Nat, irOf gp k ≤ B) :
    ∀ k, irOf g k ≤ B := by
  intro k
  unfold irOf
  rw [hnodes]
  dsimp only
  by_cases hkc : k = c.id
  · rw [if_pos hkc]
    dsimp only
    rw [hc'ir]
    exact Nat.zero_le _
  · rw [if_neg hkc]
    unfold bumpNodes
    by_cases hk2 : k = ps.2
    · rw [if_pos hk2]
      exact hB2
    · rw [if_neg hk2]
      by_cases hk1 : k = ps.1
      · rw [if_pos hk1]
        exact hB1 (fun e => hk2 (hk1.trans e))
      · rw [if_neg hk1]
        have hb := hBother k
        unfold irOf at hb
        exact hb

/-- One successful insertion keeps `most_in_reference_transaction` pointing at
a stored transaction of maximal `in_reference`; moreover either the recorded
id and its value are unchanged, or the recorded value strictly increased. -/
theorem most_step_main {gp g : Graph} {c c' : Transaction} {ps : Nat × Nat}
    {lp rp : Transaction}
    (hkey : ∀ k t, gp.nodes k = some t → t.id = k)
    (h0none : gp.nodes 0 = none)
    (hnone : gp.nodes c.id = none)
    (hc'ir : c'.metrics.in_reference = 0)
    (hlp : gp.nodes ps.1 = some lp)
    (hrp : (if ps.2 = ps.1 then some (bump lp) else gp.nodes ps.2) = some rp)
    (hnodes : g.nodes = fun k => if k = c.id then some c'
      else bumpNodes gp.nodes ps.1 ps.2 lp rp k)
    (hm0 : gp.metrics.most_in_reference_transaction ≠ 0)
    (t : Transaction)
    (ht : gp.nodes gp.metrics.most_in_reference_transaction = some t)
    (hmax : ∀ k, irOf gp k ≤ t.metrics.in_reference)
    (hmost : ∃ m1,
      MostStep (bumpNodes gp.nodes ps.1 ps.2 lp rp)
        gp.metrics.most_in_reference_transaction
        ((bump lp).id, (bump lp).metrics) m1 ∧
      MostStep (bumpNodes gp.nodes ps.1 ps.2 lp rp) m1
        ((bump rp).id, (bump rp).metrics)
        g.metrics.most_in_reference_transaction) :
    g.metrics.most_in_reference_transaction ≠ 0 ∧
    ∃ t', g.nodes g.metrics.most_in_reference_transaction = some t' ∧
      (∀ k, irOf g k ≤ t'.metrics.in_reference) ∧
      ((g.metrics.most_in_reference_transaction =
          gp.metrics.most_in_reference_transaction ∧
        t'.metrics.in_reference = t.metrics.in_reference) ∨
        t.metrics.in_reference < t'.metrics.in_reference) := by
  obtain ⟨hlid, hrid⟩ := parent_ids hkey hlp hrp
  have hp1ne : ps.1 ≠ 0 := by
    intro e
    rw [e, h0none] at hlp
    cases hlp
  have hmnec : gp.metrics.most_in_reference_transaction ≠ c.id := by
    intro e
    rw [e, hnone] at ht
    cases ht
  have hp1nec : ps.1 ≠ c.id := by
    intro e
    rw [e, hnone] at hlp
    cases hlp
  have hgk : ∀ k, k ≠ c.id →
      g.nodes k = bumpNodes gp.nodes ps.1 ps.2 lp rp k := by
    intro k hk
    rw [hnodes]
    dsimp only
    rw [if_neg hk]
  have hbn2 : bumpNodes gp.nodes ps.1 ps.2 lp rp ps.2 = some (bump rp) := by
    unfold bumpNodes
    rw [if_pos rfl]
  have hlpV : lp.metrics.in_reference ≤ t.metrics.in_reference := by
    have hb := hmax ps.1
    unfold irOf at hb
    rw [hlp] at hb
    exact hb
  have hsnapL : (bump lp).id = ps.1 := hlid
  have hsnapR : (bump rp).id = ps.2 := hrid
  have hblp_ir : (bump lp).metrics.in_reference = lp.metrics.in_reference + 1 := rfl
  have hbrp_ir : (bump rp).metrics.in_reference = rp.metrics.in_reference + 1 := rfl
  obtain ⟨m1, hs1, hs2⟩ := hmost
  rcases hs1 with ⟨hz, _⟩ | ⟨_, tb1, htb1, hm1eq⟩
  · exact absurd hz hm0
  dsimp only at hm1eq
  rw [hsnapL] at hm1eq
  by_cases hpp : ps.2 = ps.1
  · -- both parent occurrences name the same transaction
    have hrpe : bump lp = rp := by
      have hrp2 := hrp
      rw [if_pos hpp] at hrp2
      injection hrp2 with hrp2
    have hrpir : rp.metrics.in_reference = lp.metrics.in_reference + 1 := by
      rw [← hrpe]
      rfl
    have hbn1 : bumpNodes gp.nodes ps.1 ps.2 lp rp ps.1 = some (bump rp) := by
      unfold bumpNodes
      rw [if_pos hpp.symm]
    by_cases hmp : gp.metrics.most_in_reference_transaction = ps.1
    · -- the recorded transaction is the (single) parent itself
      have htlpir : t.metrics.in_reference = lp.metrics.in_reference := by
        rw [hmp, hlp] at ht
        injection ht with ht
        rw [← ht]
      have htb1' : tb1 = bump rp := by
        rw [hmp, hbn1] at htb1
        injection htb1 with h2
        exact h2.symm
      have hm1 : m1 = gp.metrics.most_in_reference_transaction := by
        rw [hm1eq, htb1']
        rw [if_neg (show ¬((bump rp).metrics.in_reference <
          (bump lp).metrics.in_reference) from by rw [hbrp_ir, hblp_ir, hrpir]; omega)]
      rcases hs2 with ⟨hz2, _⟩ | ⟨_, tb2, htb2, hmosteq⟩
      · rw [hm1, hmp] at hz2
        exact absurd hz2 hp1ne
      dsimp only at hmosteq
      rw [hsnapR] at hmosteq
      rw [hm1, hmp] at htb2
      have htb2' : tb2 = bump rp := by
        rw [hbn1] at htb2
        injection htb2 with h2
        exact h2.symm
      have hmost' : g.metrics.most_in_reference_transaction = ps.1 := by
        rw [hmosteq, htb2', if_neg (lt_irrefl _), hm1, hmp]
      refine ⟨by rw [hmost']; exact hp1ne, bump rp, ?_, ?_, ?_⟩
      · rw [hmost', hgk ps.1 hp1nec]
        exact hbn1
      · have hb := irOf_g_le hnodes hc'ir (rp.metrics.in_reference + 1)
          (Nat.le_refl _)
          (fun hne => absurd hpp.symm hne)
          (fun k => by
            have hk := hmax k
            rw [htlpir] at hk
            rw [hrpir]
            omega)
        intro k
        exact hb k
      · right
        rw [hbrp_ir, hrpir, htlpir]
        omega
    · -- the recorded transaction is not a parent
      have hmp2 : gp.metrics.most_in_reference_transaction ≠ ps.2 := by
        rw [hpp]
        exact hmp
      have hbnm : bumpNodes gp.nodes ps.1 ps.2 lp rp
          gp.metrics.most_in_reference_transaction =
          gp.nodes gp.metrics.most_in_reference_transaction := by
        unfold bumpNodes
        rw [if_neg hmp2, if_neg hmp]
      have htb1' : tb1 = t := by
        rw [hbnm, ht] at htb1
        injection htb1 with h2
        exact h2.symm
      by_cases hcmp1 : t.metrics.in_reference < (bump lp).metrics.in_reference
      · have hm1 : m1 = ps.1 := by
          rw [hm1eq, htb1', if_pos hcmp1]
        rcases hs2 with ⟨hz2, _⟩ | ⟨_, tb2, htb2, hmosteq⟩
        · rw [hm1] at hz2
          exact absurd hz2 hp1ne
        dsimp only at hmosteq
        rw [hsnapR] at hmosteq
        rw [hm1] at htb2
        have htb2' : tb2 = bump rp := by
          rw [hbn1] at htb2
          injection htb2 with h2
          exact h2.symm
        have hmost' : g.metrics.most_in_reference_transaction = ps.1 := by
          rw [hmosteq, htb2', if_neg (lt_irrefl _), hm1]
        refine ⟨by rw [hmost']; exact hp1ne, bump rp, ?_, ?_, ?_⟩
        · rw [hmost', hgk ps.1 hp1nec]
          exact hbn1
        · exact irOf_g_le hnodes hc'ir (rp.metrics.in_reference + 1)
            (Nat.le_refl _)
            (fun hne => absurd hpp.symm hne)
            (fun k => by
              have hk := hmax k
              rw [hblp_ir] at hcmp1
              rw [hrpir]
              omega)
        · right
          rw [hblp_ir] at hcmp1
          rw [hbrp_ir, hrpir]
          omega
      · have hm1 : m1 = gp.metrics.most_in_reference_transaction := by
          rw [hm1eq, htb1', if_neg hcmp1]
        rcases hs2 with ⟨hz2, _⟩ | ⟨_, tb2, htb2, hmosteq⟩
        · rw [hm1] at hz2
          exact absurd hz2 hm0
        dsimp only at hmosteq
        rw [hsnapR] at hmosteq
        rw [hm1] at htb2
        have htb2' : tb2 = t := by
          rw [hbnm, ht] at htb2
          injection htb2 with h2
          exact h2.symm
        by_cases hcmp2 : t.metrics.in_reference < (bump rp).metrics.in_reference
        · have hmost' : g.metrics.most_in_reference_transaction = ps.2 := by
            rw [hmosteq, htb2', if_pos hcmp2]
          have hp2ne : ps.2 ≠ 0 := by
            rw [hpp]
            exact hp1ne
          have hp2nec : ps.2 ≠ c.id := by
            rw [hpp]
            exact hp1nec
          refine ⟨by rw [hmost']; exact hp2ne, bump rp, ?_, ?_, ?_⟩
          · rw [hmost', hgk ps.2 hp2nec]
            exact hbn2
          · exact irOf_g_le hnodes hc'ir (rp.metrics.in_reference + 1)
              (Nat.le_refl _)
              (fun hne => absurd hpp.symm hne)
              (fun k => by
                have hk := hmax k
                rw [hbrp_ir] at hcmp2
                omega)
          · right
            rw [hbrp_ir] at hcmp2
            rw [hbrp_ir]
            omega
        · have hmost' : g.metrics.most_in_reference_transaction =
              gp.metrics.most_in_reference_transaction := by
            rw [hmosteq, htb2', if_neg hcmp2, hm1]
          refine ⟨by rw [hmost']; exact hm0, t, ?_, ?_, ?_⟩
          · rw [hmost', hgk _ hmnec, hbnm]
            exact ht
          · exact irOf_g_le hnodes hc'ir t.metrics.in_reference
              (by rw [hbrp_ir] at hcmp2; omega)
              (fun hne => absurd hpp.symm hne)
              hmax
          · left
            exact ⟨hmost', rfl⟩
  · -- two distinct parents
    have hrpd : gp.nodes ps.2 = some rp := by
      have hrp2 := hrp
      rw [if_neg hpp] at hrp2
      exact hrp2
    have hp2ne : ps.2 ≠ 0 := by
      intro e
      rw [e, h0none] at hrpd
      cases hrpd
    have hp2nec : ps.2 ≠ c.id := by
      intro e
      rw [e, hnone] at hrpd
      cases hrpd
    have hrpV : rp.metrics.in_reference ≤ t.metrics.in_reference := by
      have hb := hmax ps.2
      unfold irOf at hb
      rw [hrpd] at hb
      exact hb
    have hbn1 : bumpNodes gp.nodes ps.1 ps.2 lp rp ps.1 = some (bump lp) := by
      unfold bumpNodes
      rw [if_neg (fun e => hpp e.symm), if_pos rfl]
    by_cases hma : gp.metrics.most_in_reference_transaction = ps.1
    · -- the recorded transaction is the left parent
      have htlpir : t.metrics.in_reference = lp.metrics.in_reference := by
        rw [hma, hlp] at ht
        injection ht with ht
        rw [← ht]
      have htb1' : tb1 = bump lp := by
        rw [hma, hbn1] at htb1
        injection htb1 with h2
        exact h2.symm
      have hm1 : m1 = gp.metrics.most_in_reference_transaction := by
        rw [hm1eq, htb1', if_neg (lt_irrefl _)]
      rcases hs2 with ⟨hz2, _⟩ | ⟨_, tb2, htb2, hmosteq⟩
      · rw [hm1] at hz2
        exact absurd hz2 hm0
      dsimp only at hmosteq
      rw [hsnapR] at hmosteq
      rw [hm1, hma] at htb2
      have htb2' : tb2 = bump lp := by
        rw [hbn1] at htb2
        injection htb2 with h2
        exact h2.symm
      have hmost' : g.metrics.most_in_reference_transaction = ps.1 := by
        rw [hmosteq, htb2', if_neg (show ¬((bump lp).metrics.in_reference <
          (bump rp).metrics.in_reference) from by
            rw [hblp_ir, hbrp_ir]
            rw [htlpir] at hrpV
            omega), hm1, hma]
      refine ⟨by rw [hmost']; exact hp1ne, bump lp, ?_, ?_, ?_⟩
      · rw [hmost', hgk ps.1 hp1nec]
        exact hbn1
      · exact irOf_g_le hnodes hc'ir (lp.metrics.in_reference + 1)
          (by rw [htlpir] at hrpV; omega)
          (fun _ => Nat.le_refl _)
          (fun k => by
            have hk := hmax k
            rw [htlpir] at hk
            omega)
      · right
        rw [hblp_ir, htlpir]
        omega
    · by_cases hmb : gp.metrics.most_in_reference_transaction = ps.2
      · -- the recorded transaction is the right parent
        have htrpir : t.metrics.in_reference = rp.metrics.in_reference := by
          rw [hmb, hrpd] at ht
          injection ht with ht
          rw [← ht]
        have htb1' : tb1 = bump rp := by
          rw [hmb, hbn2] at htb1
          injection htb1 with h2
          exact h2.symm
        have hm1 : m1 = gp.metrics.most_in_reference_transaction := by
          rw [hm1eq, htb1', if_neg (show ¬((bump rp).metrics.in_reference <
            (bump lp).metrics.in_reference) from by
              rw [hblp_ir, hbrp_ir]
              rw [htrpir] at hlpV
              omega)]
        rcases hs2 with ⟨hz2, _⟩ | ⟨_, tb2, htb2, hmosteq⟩
        · rw [hm1] at hz2
          exact absurd hz2 hm0
        dsimp only at hmosteq
        rw [hsnapR] at hmosteq
        rw [hm1, hmb] at htb2
        have htb2' : tb2 = bump rp := by
          rw [hbn2] at htb2
          injection htb2 with h2
          exact h2.symm
        have hmost' : g.metrics.most_in_reference_transaction = ps.2 := by
          rw [hmosteq, htb2', if_neg (lt_irrefl _), hm1, hmb]
        refine ⟨by rw [hmost']; exact hp2ne, bump rp, ?_, ?_, ?_⟩
        · rw [hmost', hgk ps.2 hp2nec]
          exact hbn2
        · exact irOf_g_le hnodes hc'ir (rp.metrics.in_reference + 1)
            (Nat.le_refl _)
            (fun _ => by rw [htrpir] at hlpV; omega)
            (fun k => by
              have hk := hmax k
              rw [htrpir] at hk
              omega)
        · right
          rw [hbrp_ir, htrpir]
          omega
      · -- the recorded transaction is neither parent
        have hbnm : bumpNodes gp.nodes ps.1 ps.2 lp rp
            gp.metrics.most_in_reference_transaction =
            gp.nodes gp.metrics.most_in_reference_transaction := by
          unfold bumpNodes
          rw [if_neg hmb, if_neg hma]
        have htb1' : tb1 = t := by
          rw [hbnm, ht] at htb1
          injection htb1 with h2
          exact h2.symm
        by_cases hcmp1 : t.metrics.in_reference < (bump lp).metrics.in_reference
        · have hm1 : m1 = ps.1 := by
            rw [hm1eq, htb1', if_pos hcmp1]
          rcases hs2 with ⟨hz2, _⟩ | ⟨_, tb2, htb2, hmosteq⟩
          · rw [hm1] at hz2
            exact absurd hz2 hp1ne
          dsimp only at hmosteq
          rw [hsnapR] at hmosteq
          rw [hm1] at htb2
          have htb2' : tb2 = bump lp := by
            rw [hbn1] at htb2
            injection htb2 with h2
            exact h2.symm
          have hmost' : g.metrics.most_in_reference_transaction = ps.1 := by
            rw [hmosteq, htb2', if_neg (show ¬((bump lp).metrics.in_reference <
              (bump rp).metrics.in_reference) from by
                rw [hblp_ir, hbrp_ir]
                rw [hblp_ir] at hcmp1
                omega), hm1]
          refine ⟨by rw [hmost']; exact hp1ne, bump lp, ?_, ?_, ?_⟩
          · rw [hmost', hgk ps.1 hp1nec]
            exact hbn1
          · exact irOf_g_le hnodes hc'ir (lp.metrics.in_reference + 1)
              (by rw [hblp_ir] at hcmp1; omega)
              (fun _ => Nat.le_refl _)
              (fun k => by
                have hk := hmax k
                rw [hblp_ir] at hcmp1
                omega)
          · right
            rw [hblp_ir] at hcmp1
            rw [hblp_ir]
            omega
        · have hm1 : m1 = gp.metrics.most_in_reference_transaction := by
            rw [hm1eq, htb1', if_neg hcmp1]
          rcases hs2 with ⟨hz2, _⟩ | ⟨_, tb2, htb2, hmosteq⟩
          · rw [hm1] at hz2
            exact absurd hz2 hm0
          dsimp only at hmosteq
          rw [hsnapR] at hmosteq
          rw [hm1] at htb2
          have htb2' : tb2 = t := by
            rw [hbnm, ht] at htb2
            injection htb2 with h2
            exact h2.symm
          by_cases hcmp2 : t.metrics.in_reference < (bump rp).metrics.in_reference
          · have hmost' : g.metrics.most_in_reference_transaction = ps.2 := by
              rw [hmosteq, htb2', if_pos hcmp2]
            refine ⟨by rw [hmost']; exact hp2ne, bump rp, ?_, ?_, ?_⟩
            · rw [hmost', hgk ps.2 hp2nec]
              exact hbn2
            · exact irOf_g_le hnodes hc'ir (rp.metrics.in_reference + 1)
                (Nat.le_refl _)
                (fun _ => by
                  rw [hblp_ir] at hcmp1
                  rw [hbrp_ir] at hcmp2
                  omega)
                (fun k => by
                  have hk := hmax k
                  rw [hbrp_ir] at hcmp2
                  omega)
            · right
              rw [hbrp_ir] at hcmp2
              rw [hbrp_ir]
              omega
          · have hmost' : g.metrics.most_in_reference_transaction =
                gp.metrics.most_in_reference_transaction := by
              rw [hmosteq, htb2', if_neg hcmp2, hm1]
            refine ⟨by rw [hmost']; exact hm0, t, ?_, ?_, ?_⟩
            · rw [hmost', hgk _ hmnec, hbnm]
              exact ht
            · exact irOf_g_le hnodes hc'ir t.metrics.in_reference
                (by rw [hbrp_ir] at hcmp2; omega)
                (fun _ => by rw [hblp_ir] at hcmp1; omega)
                hmax
            · left
              exact ⟨hmost', rfl⟩

/-- Contents of `most_in_reference_transaction` after a successful run: a
stored transaction of maximal `in_reference` such that no key attained that
maximal value at an earlier stage of the run unless the recorded key had
already attained it as well (the recorded transaction is a first reacher of
the maximal value, at insertion granularity). -/
def MostInv (n : Nat) (cs : List Transaction) (g : Graph) : Prop :=
  g.metrics.most_in_reference_transaction ≠ 0 ∧
  ∃ t, g.nodes g.metrics.most_in_reference_transaction = some t ∧
    (∀ k, irOf g k ≤ t.metrics.in_reference) ∧
    (∀ (j k : Nat), t.metrics.in_reference ≤ irAt (Graph.with_capacity n) cs j k →
      t.metrics.in_reference ≤ irAt (Graph.with_capacity n) cs j
        g.metrics.most_in_reference_transaction)

/-- C4 amended: after every nonempty run of successful insertions whose
candidates all have nonzero ids and constructor-placeholder `in_reference`
(zero, as `Transaction::new` builds them), `most_in_reference_transaction`
holds the id of an admitted transaction whose `in_reference` is maximal, and
no admitted transaction reached that value at a strictly earlier insertion
than the recorded one; the per-insertion update is one strictly-less
comparison per parent snapshot in left-then-right order.  (An admitted
candidate with id 0 collides with the unset sentinel and breaks maximality,
hence the nonzero-id hypothesis; a nonzero caller-supplied `in_reference`
would break it too, hence the placeholder hypothesis.) -/
theorem claim_C4_amended (n : Nat) :
    ∀ (cs : List Transaction) (g : Graph),
    addAll (Graph.with_capacity n) cs = some g →
    (∀ c ∈ cs, c.id ≠ 0 ∧ c.metrics.in_reference = 0) →
    cs ≠ [] → MostInv n cs g := by
  intro cs
  induction cs using List.reverseRecOn with
  | nil =>
    intro g h hids hne
    exact absurd rfl hne
  | append_singleton xs c ih =>
    intro g h hids hne
    have hSnoc := h
    rw [addAll_snoc] at hSnoc
    cases hp : addAll (Graph.with_capacity n) xs with
    | none => rw [hp] at hSnoc; cases hSnoc
    | some gp =>
      rw [hp] at hSnoc
      dsimp only at hSnoc
      obtain ⟨c', hadd⟩ := addOk_elim hSnoc
      obtain ⟨hnone, ps, lp, rp, hpar, hlp, hrp, hceq, hnum, hnodes, hlast, hmost⟩ :=
        add_node_ok_elim hadd
      have hidc := hids c (by simp)
      have hc'ir : c'.metrics.in_reference = 0 := by
        rw [hceq]
        exact hidc.2
      have hidsxs : ∀ cc ∈ xs, cc.id ≠ 0 ∧ cc.metrics.in_reference = 0 :=
        fun cc hm => hids cc (by simp [hm])
      have hAux : AuxInv gp :=
        addAll_AuxInv xs (Graph.with_capacity n) gp (AuxInv_with_capacity n) hp
          (fun cc hm => (hidsxs cc hm).1)
      by_cases hxs : xs = []
      · subst hxs
        have hgp : some (Graph.with_capacity n) = some gp := hp
        injection hgp with hgp
        subst hgp
        obtain ⟨hps1, hlproot⟩ := with_capacity_nodes hlp
        have hpp : ps.2 = ps.1 := by
          by_cases hpp : ps.2 = ps.1
          · exact hpp
          · exfalso
            have hrp2 := hrp
            rw [if_neg hpp] at hrp2
            obtain ⟨hps2, _⟩ := with_capacity_nodes hrp2
            exact hpp (hps2.trans hps1.symm)
        have hrpe : bump lp = rp := by
          have hrp2 := hrp
          rw [if_pos hpp] at hrp2
          injection hrp2 with hrp2
        have hc1 : c.id ≠ 1 := by
          intro e
          rw [e] at hnone
          rw [show (Graph.with_capacity n).nodes 1 = some ROOT_NODE from rfl] at hnone
          cases hnone
        have hval2 : (bump rp).metrics.in_reference = 2 := by
          rw [← hrpe, hlproot]
          rfl
        have hbn1 : bumpNodes (Graph.with_capacity n).nodes ps.1 ps.2 lp rp 1 =
            some (bump rp) := by
          unfold bumpNodes
          rw [if_pos (hpp.trans hps1).symm]
        obtain ⟨m1, hs1, hs2⟩ := hmost
        rcases hs1 with ⟨_, hm1eq⟩ | ⟨hz, _⟩
        · dsimp only at hm1eq
          have hm1v : m1 = 1 := by
            rw [hm1eq, hlproot]
            rfl
          rcases hs2 with ⟨hz2, _⟩ | ⟨_, tb2, htb2, hmosteq⟩
          · rw [hm1v] at hz2
            cases hz2
          · dsimp only at hmosteq
            rw [hm1v] at htb2
            have htb2' : tb2 = bump rp := by
              rw [hbn1] at htb2
              injection htb2 with h2
              exact h2.symm
            have hmost' : g.metrics.most_in_reference_transaction = 1 := by
              rw [hmosteq, htb2', if_neg (lt_irrefl _), hm1v]
            have hlook : g.nodes g.metrics.most_in_reference_transaction =
                some (bump rp) := by
              rw [hmost', hnodes]
              dsimp only
              rw [if_neg (fun e => hc1 e.symm)]
              exact hbn1
            refine ⟨by rw [hmost']; exact Nat.one_ne_zero, bump rp, hlook, ?_, ?_⟩
            · exact irOf_g_le hnodes hc'ir (rp.metrics.in_reference + 1)
                (Nat.le_refl _)
                (fun hne => absurd hpp.symm hne)
                (fun k => by
                  rw [irOf_with_capacity]
                  exact Nat.zero_le _)
            · intro j k hjk
              cases j with
              | zero =>
                exfalso
                have hz0 : irAt (Graph.with_capacity n) ([] ++ [c]) 0 k = 0 :=
                  irOf_with_capacity n k
                rw [hz0] at hjk
                rw [hval2] at hjk
                omega
              | succ j =>
                have hfin : irAt (Graph.with_capacity n) ([] ++ [c]) (j + 1)
                    g.metrics.most_in_reference_transaction =
                    (bump rp).metrics.in_reference := by
                  unfold irAt
                  rw [List.take_of_length_le (by simp), h]
                  dsimp only
                  unfold irOf
                  rw [hlook]
                rw [hfin]
        · exact absurd rfl hz
      · obtain ⟨hm0, t, ht, hmax, hhist⟩ := ih gp hp hidsxs hxs
        obtain ⟨hm0', t', hlook', hmax', hdich⟩ :=
          most_step_main hAux.1 hAux.2 hnone hc'ir hlp hrp hnodes hm0 t ht hmax hmost
        have htake_le : ∀ j, j ≤ xs.length → (xs ++ [c]).take j = xs.take j := by
          intro j hj
          rw [List.take_append_eq_append_take, Nat.sub_eq_zero_of_le hj]
          simp
        refine ⟨hm0', t', hlook', hmax', ?_⟩
        intro j k hjk
        by_cases hj : j ≤ xs.length
        · have hirAteq : ∀ k2, irAt (Graph.with_capacity n) (xs ++ [c]) j k2 =
              irAt (Graph.with_capacity n) xs j k2 := by
            intro k2
            unfold irAt
            rw [htake_le j hj]
          rw [hirAteq] at hjk
          rw [hirAteq]
          rcases hdich with ⟨hsame, hval⟩ | hgt
          · rw [hval] at hjk
            rw [hval, hsame]
            exact hhist j k hjk
          · exfalso
            have h1 : irAt (Graph.with_capacity n) xs j k ≤ irOf gp k :=
              irAt_le_final hp j k
            have h2 : irOf gp k ≤ t.metrics.in_reference := hmax k
            omega
        · have htk : (xs ++ [c]).take j = xs ++ [c] := by
            apply List.take_of_length_le
            simp
            omega
          have hfin : irAt (Graph.with_capacity n) (xs ++ [c]) j
              g.metrics.most_in_reference_transaction = t'.metrics.in_reference := by
            unfold irAt
            rw [htk, h]
            dsimp only
            unfold irOf
            rw [hlook']
          rw [hfin]

/-- Counterexample to C4 as stated: in the successful run that admits
candidates with ids 0, 2, 3, 4 (all built by the constructor), the final
`most_in_reference_transaction` is 2, whose `in_reference` is 2, although the
admitted transaction with id 0 has `in_reference` 4 — recording id 0 re-armed
the "unset" sentinel and a later insertion overwrote the field with a
non-maximal transaction. -/
theorem claim_C4_counterexample :
    (addAll (Graph.with_capacity 5)
      [Transaction.new 0 1 1 0, Transaction.new 2 0 0 0,
       Transaction.new 3 0 0 0, Transaction.new 4 2 2 0]).map
      (fun g => (g.metrics.most_in_reference_transaction, irOf g 0, irOf g 2)) =
      some (2, 4, 2) := by
  rfl

/-- The graph of the concrete one-insertion run used as C4's witness. -/
def wit4Graph : Graph :=
  (addAll (Graph.with_capacity 4) [Transaction.new 2 1 1 7]).elim
    (Graph.with_capacity 0) id

/-- Witness for the amended C4 at a concrete run. -/
theorem claim_C4_witness :
    addAll (Graph.with_capacity 4) [Transaction.new 2 1 1 7] = some wit4Graph ∧
    MostInv 4 [Transaction.new 2 1 1 7] wit4Graph :=
  ⟨rfl, claim_C4_amended 4 [Transaction.new 2 1 1 7] wit4Graph rfl
    (by decide) (by decide)⟩

/-- The graph produced by the concrete successful call used as C5's witness. -/
def wit5Graph : Graph :=
  ((Graph.with_capacity 1).add_node preloadedCandidate).elim
    (Graph.with_capacity 0) (fun r => r.2.1)

/-- The committed candidate of that same call. -/
def wit5Node : Transaction :=
  ((Graph.with_capacity 1).add_node preloadedCandidate).elim
    ROOT_NODE (fun r => r.2.2)

/-- Witness for the amended C5 at a concrete successful call. -/
theorem claim_C5_witness :
    (Graph.with_capacity 1).add_node preloadedCandidate =
      some (Except.ok (), wit5Graph, wit5Node) ∧
    (wit5Graph.nodes preloadedCandidate.id = some wit5Node ∧
     wit5Node.metrics.in_reference = preloadedCandidate.metrics.in_reference ∧
     ∀ i l r ts, (Transaction.new i l r ts).metrics.in_reference = 0) :=
  ⟨rfl, claim_C5_amended (Graph.with_capacity 1) preloadedCandidate
    wit5Graph wit5Node rfl⟩
